import Mathlib

/-!
Verification development for the seguente record-registry service.

The repository holds near-duplicate variants of one small Go service.  The
namespace `Lib` below embeds the metrics variant (clamping, legacy-schema
migration, descriptor normalisation, identifier resolution); the namespace
`LibV1` embeds the earlier variant (registration with legacy cleanup and the
find-by-scan fallback).

Modelling conventions, fixed once here:

* Go `float64` is modelled by `GoFloat`: an exact rational for the finite
  case plus `nan`, `posInf`, `negInf`.  Every float operation the service
  performs is a comparison or a selection — no arithmetic — so exact
  rationals are faithful (`-0.0` is conflated with `0.0`, which agrees with
  Go's `==`, `<`, `>` on those values).
* JSON byte strings are modelled by the decoded views the code extracts from
  them (`json.Unmarshal` is an external collaborator): a value of `GoBytes`
  records the result of unmarshalling the same bytes into the payload struct
  and into the legacy-limits probe struct; `none` stands for a failed
  unmarshal.
* The key-value store is a snapshot association list from keys to the decoded
  view of the stored bytes; `Get` is first-match lookup, `Put` replaces,
  `Delete` removes, `List` yields the keys.  Injected per-key delete failures
  model storage errors.
* Go string helpers (`strings.TrimSpace`, `strings.Trim`, `strings.Split`,
  `strings.TrimPrefix`) are modelled on Lean strings; whitespace is the ASCII
  whitespace set.
-/

/-- Model of Go `float64` for code that only compares and selects values:
an exact rational for finite doubles, plus NaN and the two infinities. -/
inductive GoFloat : Type where
  | finite (q : ℚ)
  | nan
  | posInf
  | negInf
deriving DecidableEq

/-- Go `<` on `float64`: any comparison involving NaN is false. -/
def GoFloat.lt : GoFloat → GoFloat → Bool
  | .finite a, .finite b => a < b
  | .finite _, .posInf => true
  | .negInf, .finite _ => true
  | .negInf, .posInf => true
  | _, _ => false

/-- Go `>` on `float64`. -/
def GoFloat.gt (a b : GoFloat) : Bool := GoFloat.lt b a

/-- Go `==` on `float64`: NaN is not equal to anything, including itself. -/
def GoFloat.beq : GoFloat → GoFloat → Bool
  | .finite a, .finite b => a == b
  | .posInf, .posInf => true
  | .negInf, .negInf => true
  | _, _ => false

theorem GoFloat.lt_finite_iff (a b : ℚ) :
    GoFloat.lt (.finite a) (.finite b) = true ↔ a < b := by
  simp [GoFloat.lt]

theorem GoFloat.gt_finite_iff (a b : ℚ) :
    GoFloat.gt (.finite a) (.finite b) = true ↔ b < a := by
  simp [GoFloat.gt, GoFloat.lt]

theorem GoFloat.beq_finite_iff (a b : ℚ) :
    GoFloat.beq (.finite a) (.finite b) = true ↔ a = b := by
  simp [GoFloat.beq]

/-- The head of `l.dropWhile p`, when it exists, falsifies `p`. -/
theorem dropWhile_head_not {α : Type} (p : α → Bool) :
    ∀ (l : List α) (a : α), (l.dropWhile p).head? = some a → p a = false := by
  intro l
  induction l with
  | nil => intro a h; simp [List.dropWhile] at h
  | cons b rest ih =>
    intro a h
    by_cases hb : p b
    · rw [List.dropWhile_cons_of_pos hb] at h
      exact ih a h
    · rw [List.dropWhile_cons_of_neg hb] at h
      simp only [List.head?_cons, Option.some.injEq] at h
      subst h
      simpa using hb

/-- A list whose head (if any) falsifies `p` is untouched by `dropWhile p`. -/
theorem dropWhile_of_head_not {α : Type} (p : α → Bool) (l : List α)
    (h : ∀ a : α, l.head? = some a → p a = false) : l.dropWhile p = l := by
  cases l with
  | nil => rfl
  | cons b rest =>
    have hb : p b = false := h b rfl
    simp [List.dropWhile, hb]

/-- `dropWhile` is idempotent. -/
theorem dropWhile_idem {α : Type} (p : α → Bool) (l : List α) :
    (l.dropWhile p).dropWhile p = l.dropWhile p :=
  dropWhile_of_head_not p _ (dropWhile_head_not p l)

/-- A nonempty `l.dropWhile p` ends where `l` ends. -/
theorem dropWhile_getLast? {α : Type} (p : α → Bool) (l : List α)
    (h : l.dropWhile p ≠ []) : (l.dropWhile p).getLast? = l.getLast? := by
  have h2 := List.getLast?_append_of_ne_nil (l.takeWhile p) h
  rw [List.takeWhile_append_dropWhile] at h2
  exact h2.symm

/-- ASCII whitespace, the characters `strings.TrimSpace` removes from the
strings this service handles. -/
def goIsSpace (c : Char) : Bool :=
  c = ' ' || c = '\t' || c = '\n' || c = '\x0b' || c = '\x0c' || c = '\r'

/-- Model of Go `strings.TrimSpace`. -/
def goTrimSpace (s : String) : String :=
  ⟨((s.data.dropWhile goIsSpace).reverse.dropWhile goIsSpace).reverse⟩

/-- Model of Go `strings.Trim(s, cutset)` for a one-character cutset. -/
def goTrimChar (s : String) (c : Char) : String :=
  ⟨((s.data.dropWhile (· = c)).reverse.dropWhile (· = c)).reverse⟩

/-- Splitting a character list at every occurrence of a separator. -/
def goSplitList (c : Char) : List Char → List (List Char)
  | [] => [[]]
  | a :: rest =>
    let r := goSplitList c rest
    if a = c then [] :: r
    else
      match r with
      | [] => [[a]]
      | g :: gs => (a :: g) :: gs

/-- Model of Go `strings.Split(s, sep)` for a one-character separator. -/
def goSplit (s : String) (c : Char) : List String :=
  (goSplitList c s.data).map List.asString

/-- Model of Go `strings.TrimPrefix`. -/
def goTrimPfx (s pre : String) : String :=
  if pre.isPrefixOf s then s.drop pre.length else s

/-- `strings.TrimSpace` is idempotent. -/
theorem goTrimSpace_idem (s : String) :
    goTrimSpace (goTrimSpace s) = goTrimSpace s := by
  unfold goTrimSpace
  have hu' : ((((s.data.dropWhile goIsSpace).reverse.dropWhile
      goIsSpace).reverse : List Char)).dropWhile goIsSpace =
      ((s.data.dropWhile goIsSpace).reverse.dropWhile goIsSpace).reverse := by
    apply dropWhile_of_head_not
    intro a ha
    rw [List.head?_reverse] at ha
    by_cases hv : (s.data.dropWhile goIsSpace).reverse.dropWhile goIsSpace = []
    · rw [hv] at ha; simp at ha
    · rw [dropWhile_getLast? goIsSpace _ hv, List.getLast?_reverse] at ha
      exact dropWhile_head_not goIsSpace _ a ha
  rw [show (String.data ⟨((s.data.dropWhile goIsSpace).reverse.dropWhile
      goIsSpace).reverse⟩ : List Char) =
      ((s.data.dropWhile goIsSpace).reverse.dropWhile goIsSpace).reverse from rfl]
  rw [hu', List.reverse_reverse, dropWhile_idem]

namespace Lib

/-- The single recognised metric name (Go constant `metricKey`). -/
def metricKey : String := "metric"

/-- Go constant `metricMin = 0.0`. -/
def metricMin : GoFloat := .finite 0

/-- Go constant `metricMax = 100.0`. -/
def metricMax : GoFloat := .finite 100

/-- Go struct `valueAddress`. -/
structure ValueAddress where
  ip : String
  port : Option String
  protocol : Option String
deriving DecidableEq

/-- Go struct `valueMetrics`. -/
structure ValueMetrics where
  current : GoFloat
  softLimit : GoFloat
  hardLimit : GoFloat
deriving DecidableEq

/-- Go struct `legacyValueLimits`. -/
structure LegacyValueLimits where
  soft : GoFloat
  hard : GoFloat
deriving DecidableEq

/-- First-match lookup in an association list, the model of reading one key
of a Go `map[string]valueMetrics`. -/
def assocFind : List (String × ValueMetrics) → String → Option ValueMetrics
  | [], _ => none
  | (k, v) :: rest, key => if k = key then some v else assocFind rest key

/-- Assignment `m[key] = v` on a Go map, modelled as replace-first-or-append
(maps decoded from JSON have distinct keys, so this is exact). -/
def assocSet : List (String × ValueMetrics) → String → ValueMetrics →
    List (String × ValueMetrics)
  | [], key, v => [(key, v)]
  | (k, w) :: rest, key, v =>
    if k = key then (key, v) :: rest else (k, w) :: assocSet rest key v

/-- A Go `map[string]valueMetrics`: `none` is the nil map, `some l` a
non-nil map holding the entries of `l`. -/
def MetricsMap : Type := Option (List (String × ValueMetrics))

instance : DecidableEq MetricsMap := by
  unfold MetricsMap; infer_instance

/-- Go `len` of a (possibly nil) metrics map. -/
def mapLen (m : MetricsMap) : Nat :=
  match m with
  | none => 0
  | some l => l.length

/-- Indexing `m[key]` on a (possibly nil) metrics map. -/
def mapFind (m : MetricsMap) (key : String) : Option ValueMetrics :=
  match m with
  | none => none
  | some l => assocFind l key

/-- Go struct `valuePayload` of the metrics variant. -/
structure ValuePayload where
  peerId : String
  address : ValueAddress
  values : MetricsMap
  raw : String
deriving DecidableEq

/-- The two views `decodeValuePayload` and `migrateLegacyValues` take of one
byte string: the result of `json.Unmarshal` into `valuePayload`, and the
result of the legacy probe `struct{ Limits *legacyValueLimits }`.  `payload =
none` models bytes that do not unmarshal into `valuePayload`; `limits = none`
models bytes that do not unmarshal into the probe struct, carry no `limits`
member, or carry `limits: null`. -/
structure GoBytes where
  payload : Option ValuePayload
  limits : Option LegacyValueLimits
deriving DecidableEq

/-- Go `isFinite`. -/
def isFinite (value : GoFloat) : Bool :=
  match value with
  | .finite _ => true
  | _ => false

/-- Go `clampMetricValue`. -/
def clampMetricValue (value : GoFloat) : GoFloat :=
  if !(isFinite value) then metricMin
  else if GoFloat.lt value metricMin then metricMin
  else if GoFloat.gt value metricMax then metricMax
  else value

/-- Go `migrateLegacyValues`: the pair is the returned map (`none` for the
Go nil map) and the `ok` flag. -/
def migrateLegacyValues (data : GoBytes) :
    Option (List (String × ValueMetrics)) × Bool :=
  match data.limits with
  | none => (none, false)
  | some lim =>
    let soft := clampMetricValue lim.soft
    let hard := clampMetricValue lim.hard
    let soft := if GoFloat.gt soft hard then hard else soft
    (some [(metricKey, ⟨soft, soft, hard⟩)], true)

/-- Go `validateValuePayload` of the metrics variant.  Error strings match
the `fmt.Errorf` messages. -/
def validateValuePayload (v : ValuePayload) : Except String Unit :=
  if goTrimSpace v.peerId = "" then .error "peerId is required"
  else if goTrimSpace v.address.ip = "" then .error "address.ip is required"
  else if goTrimSpace v.raw = "" then .error "raw is required"
  else if mapLen v.values = 0 then .error ("values." ++ metricKey ++ " is required")
  else
    match mapFind v.values metricKey with
    | none => .error ("values." ++ metricKey ++ " is required")
    | some metric =>
      if !(isFinite metric.current) || !(isFinite metric.softLimit) ||
          !(isFinite metric.hardLimit) then
        .error ("values." ++ metricKey ++ " contains invalid numbers")
      else if GoFloat.lt metric.softLimit metricMin ||
          GoFloat.gt metric.softLimit metricMax then
        .error ("values." ++ metricKey ++ ".softLimit must be between 0 and 100")
      else if GoFloat.lt metric.hardLimit metricMin ||
          GoFloat.gt metric.hardLimit metricMax then
        .error ("values." ++ metricKey ++ ".hardLimit must be between 0 and 100")
      else if GoFloat.lt metric.current metricMin ||
          GoFloat.gt metric.current metricMax then
        .error ("values." ++ metricKey ++ ".current must be between 0 and 100")
      else if GoFloat.gt metric.softLimit metric.hardLimit then
        .error ("values." ++ metricKey ++ ".softLimit must be <= hardLimit")
      else .ok ()

/-- Go `normaliseValues`: returns the (possibly updated) map and the
`changed` flag, or the error. -/
def normaliseValues (values : MetricsMap) :
    Except String (MetricsMap × Bool) :=
  match values with
  | none => .error ("values." ++ metricKey ++ " is required")
  | some l =>
    match assocFind l metricKey with
    | none => .error ("values." ++ metricKey ++ " is required")
    | some metric =>
      let n0 : ValueMetrics :=
        ⟨clampMetricValue metric.current, clampMetricValue metric.softLimit,
          clampMetricValue metric.hardLimit⟩
      let n1 := if GoFloat.gt n0.softLimit n0.hardLimit then
          { n0 with softLimit := n0.hardLimit } else n0
      let n2 := if GoFloat.gt n1.current n1.hardLimit then
          { n1 with current := n1.hardLimit } else n1
      let n3 := if GoFloat.lt n2.current metricMin then
          { n2 with current := metricMin } else n2
      let changed := !(GoFloat.beq metric.current n3.current) ||
        !(GoFloat.beq metric.softLimit n3.softLimit) ||
        !(GoFloat.beq metric.hardLimit n3.hardLimit)
      let l' := if changed then assocSet l metricKey n3 else l
      .ok (some l', changed)

/-- The storage-key fallback inside `decodeValuePayload`: strip the `/peer/`
key prefix, falling back to the raw key when stripping leaves nothing. -/
def peerIdFromKey (storageKey : String) : String :=
  let trimmed := goTrimPfx storageKey "/peer/"
  if trimmed = "" then storageKey else trimmed

/-- Go `decodeValuePayload`: unmarshal, migrate an empty metrics map from the
legacy shape, normalise, derive a missing peerId from the storage key, and
re-validate.  The boolean is the `updated` flag. -/
def decodeValuePayload (data : GoBytes) (storageKey : String) :
    Except String (ValuePayload × Bool) :=
  match data.payload with
  | none => .error "invalid character in payload"
  | some payload0 =>
    let step1 : ValuePayload × Bool :=
      if mapLen payload0.values = 0 then
        match migrateLegacyValues data with
        | (migrated, true) => ({ payload0 with values := migrated }, true)
        | (_, false) => (payload0, false)
      else (payload0, false)
    match normaliseValues step1.1.values with
    | .error e => .error e
    | .ok (vs, changed) =>
      let updated := step1.2 || changed
      let payload1 := { step1.1 with values := vs }
      let payload2 :=
        if goTrimSpace payload1.peerId = "" then
          { payload1 with peerId := peerIdFromKey storageKey } else payload1
      let updated2 :=
        if goTrimSpace payload1.peerId = "" then true else updated
      match validateValuePayload payload2 with
      | .error e => .error e
      | .ok _ => .ok (payload2, updated2)

/-- Model of `json.Marshal` on a `valuePayload`: marshalling and
unmarshalling a `valuePayload` round-trips to an equal value, and the
marshalled object has no top-level `limits` member, so the legacy probe on
the re-encoded bytes yields nothing. -/
def encodeValuePayload (p : ValuePayload) : GoBytes :=
  ⟨some p, none⟩

/-- Result of reading the request body, already unmarshalled into the
resolver's `struct{ ID, PeerID string }`: a read error, an empty body,
non-JSON bytes, or the decoded pair. -/
inductive GoBody : Type where
  | readErr
  | empty
  | malformed
  | json (peerId id : String)
deriving DecidableEq

/-- The parts of an HTTP request the identifier resolver consults.  `path`
is the result of `h.Path()` (`none` = error); the two query fields are the
results of `Query().Get` (`none` = error/absent). -/
structure HttpRequest where
  path : Option String
  queryPeerId : Option String
  queryId : Option String
  body : GoBody
deriving DecidableEq

/-- Go `getPeerIDFromPath` of the metrics variant. -/
def getPeerIDFromPath (h : HttpRequest) : Except String String :=
  match h.path with
  | none => .error "failed to read path"
  | some path =>
    let trimmed := goTrimChar path '/'
    if trimmed = "" then .error "missing peerId"
    else
      let segments := goSplit trimmed '/'
      let id := segments.getLastD ""
      if id = "" then .error "missing peerId"
      else .ok id

/-- The body stage of the fallback chain of `getPeerIDFromRequest`. -/
def getPeerIDFromBody (h : HttpRequest) : Except String String :=
  match h.body with
  | .readErr => .error "failed to read request body"
  | .empty => .error "missing peerId"
  | .malformed => .error "invalid payload format"
  | .json bodyPeerId bodyId =>
    if goTrimSpace bodyPeerId ≠ "" then .ok (goTrimSpace bodyPeerId)
    else if goTrimSpace bodyId ≠ "" then .ok (goTrimSpace bodyId)
    else .error "missing peerId"

/-- The `id` query parameter and body stages of the fallback chain. -/
def getPeerIDFallbackId (h : HttpRequest) : Except String String :=
  match h.queryId with
  | some queryID =>
    if goTrimSpace queryID ≠ "" then .ok (goTrimSpace queryID)
    else getPeerIDFromBody h
  | none => getPeerIDFromBody h

/-- The query/body fallback chain of `getPeerIDFromRequest` (the code after
the path attempt). -/
def getPeerIDFallback (h : HttpRequest) : Except String String :=
  match h.queryPeerId with
  | some queryPeerID =>
    if goTrimSpace queryPeerID ≠ "" then .ok (goTrimSpace queryPeerID)
    else getPeerIDFallbackId h
  | none => getPeerIDFallbackId h

/-- Go `getPeerIDFromRequest` of the metrics variant. -/
def getPeerIDFromRequest (h : HttpRequest) : Except String String :=
  match getPeerIDFromPath h with
  | .ok id => if goTrimSpace id ≠ "delete" then .ok id else getPeerIDFallback h
  | .error _ => getPeerIDFallback h

end Lib

namespace LibV1

/-- Go constant `valueStorePrefix` of the early variant (the empty string:
canonical keys are the bare peerId). -/
def valueStorePfx : String := ""

/-- The error `errValueNotFound`. -/
def errValueNotFound : String := "value not found"

/-- Go struct `valueLimits` of the early variant. -/
structure ValueLimits where
  soft : GoFloat
  hard : GoFloat
deriving DecidableEq

/-- Go struct `valuePayload` of the early variant. -/
structure ValuePayload where
  peerId : String
  address : Lib.ValueAddress
  limits : ValueLimits
  raw : String
deriving DecidableEq

/-- The view the early variant takes of one stored byte string: the result
of `json.Unmarshal` into `valuePayload` (`none` = bytes that fail to
unmarshal). -/
def BytesV1 : Type := Option ValuePayload

instance : DecidableEq BytesV1 := by
  unfold BytesV1; infer_instance

/-- One stored entry: key and stored bytes. -/
def EntryV1 : Type := String × BytesV1

instance : DecidableEq EntryV1 := by
  unfold EntryV1; infer_instance

/-- The key-value store: a snapshot association list plus injected per-key
delete failures (`delFail k = some e` makes `db.Delete(k)` fail with `e`).
In this base model `Get`, `Put` and `List` succeed — the healthy-store
regime the registration and lookup claims are about; the legacy-cleanup
scan additionally takes a per-key read-failure oracle (`cleanupLoopF`
below), since its claim also covers reads that fail. -/
structure DBV1 where
  entries : List EntryV1
  delFail : String → Option String

/-- `db.Get`: first-match lookup. -/
def dbGet : List EntryV1 → String → Option BytesV1
  | [], _ => none
  | (k, v) :: rest, key => if k = key then some v else dbGet rest key

/-- `db.List`: the stored keys. -/
def dbList (entries : List EntryV1) : List String :=
  entries.map Prod.fst

/-- `db.Put`: replace any entry with the same key. -/
def dbPut (entries : List EntryV1) (key : String) (v : BytesV1) : List EntryV1 :=
  (key, v) :: entries.filter (fun e => !(e.1 == key))

/-- `db.Delete`: remove the entry with the key. -/
def dbDelete (entries : List EntryV1) (key : String) : List EntryV1 :=
  entries.filter (fun e => !(e.1 == key))

/-- Go `validateValuePayload` of the early variant. -/
def validateValuePayload (v : ValuePayload) : Except String Unit :=
  if goTrimSpace v.peerId = "" then .error "peerId is required"
  else if goTrimSpace v.address.ip = "" then .error "address.ip is required"
  else if goTrimSpace v.raw = "" then .error "raw is required"
  else .ok ()

/-- The scan loop of `findValueByPeerID`: walk the listed keys, skip keys
whose read or decode fails, and stop at the first entry whose stored peerId
is non-empty and trims to the trimmed target. -/
def findLoop (entries : List EntryV1) (peerID : String) :
    List String → Option (String × BytesV1)
  | [] => none
  | k :: ks =>
    match dbGet entries k with
    | none => findLoop entries peerID ks
    | some data =>
      match data with
      | none => findLoop entries peerID ks
      | some payload =>
        if goTrimSpace payload.peerId = goTrimSpace peerID ∧ payload.peerId ≠ "" then
          some (k, data)
        else findLoop entries peerID ks

/-- Go `findValueByPeerID` of the early variant: direct get on the canonical
key, then the scan fallback, then `errValueNotFound`. -/
def findValueByPeerID (entries : List EntryV1) (peerID : String) :
    Except String (String × BytesV1) :=
  let key := valueStorePfx ++ peerID
  match dbGet entries key with
  | some data => .ok (key, data)
  | none =>
    match findLoop entries peerID (dbList entries) with
    | some hit => .ok hit
    | none => .error errValueNotFound

/-- The scan loop of `cleanupLegacyEntries`: walk the listed keys against
the evolving store, skip the kept key and entries whose read misses or
whose decode fails, delete matching entries, and abort with the storage
error on the first failing delete.  This is the healthy-read instance; the
read-failure oracle is added in `cleanupLoopF` below, of which this is
provably the no-fault case. -/
def cleanupLoop (delFail : String → Option String) (peerID keepKey : String) :
    List String → List EntryV1 → List EntryV1 × Option String
  | [], entries => (entries, none)
  | k :: ks, entries =>
    if k = keepKey then cleanupLoop delFail peerID keepKey ks entries
    else
      match dbGet entries k with
      | none => cleanupLoop delFail peerID keepKey ks entries
      | some data =>
        match data with
        | none => cleanupLoop delFail peerID keepKey ks entries
        | some payload =>
          if goTrimSpace payload.peerId = goTrimSpace peerID ∧ payload.peerId ≠ "" then
            match delFail k with
            | some e => (entries, some e)
            | none => cleanupLoop delFail peerID keepKey ks (dbDelete entries k)
          else cleanupLoop delFail peerID keepKey ks entries

/-- Go `cleanupLegacyEntries`: list once, then run the scan loop.  Returns
the final store state and the surfaced error, if any. -/
def cleanupLegacyEntries (db : DBV1) (peerID keepKey : String) :
    DBV1 × Option String :=
  let r := cleanupLoop db.delFail peerID keepKey (dbList db.entries) db.entries
  ({ db with entries := r.1 }, r.2)

/-- The storage core of Go `registerValue` of the early variant: unmarshal
the body, validate, trim the peerId, store under the canonical key, then run
legacy cleanup.  `body = none` models a body that fails to unmarshal.  On
success it returns the new store and the registered peerId. -/
def registerValueCore (db : DBV1) (body : Option ValuePayload) :
    Except String (DBV1 × String) :=
  match body with
  | none => .error "invalid payload format"
  | some payload =>
    match validateValuePayload payload with
    | .error e => .error e
    | .ok _ =>
      let peerID := goTrimSpace payload.peerId
      let payload1 := { payload with peerId := peerID }
      let key := valueStorePfx ++ peerID
      let db1 : DBV1 := { db with entries := dbPut db.entries key (some payload1) }
      match cleanupLegacyEntries db1 peerID key with
      | (_, some _) => .error "failed to cleanup legacy entries"
      | (db2, none) => .ok (db2, peerID)

/-- Does this stored entry decode to a payload whose non-empty peerId trims
to the trimmed target?  (The match condition of both scan loops.) -/
def entryMatchB (peerID keepKey : String) (e : EntryV1) : Bool :=
  !(e.1 == keepKey) &&
    (match e.2 with
     | some p => (goTrimSpace p.peerId == goTrimSpace peerID) && !(p.peerId == "")
     | none => false)

/-- A matching entry whose delete would succeed. -/
def entryDelOkB (delFail : String → Option String) (peerID keepKey : String)
    (e : EntryV1) : Bool :=
  entryMatchB peerID keepKey e && (delFail e.1).isNone

/-- A matching entry whose delete would fail. -/
def entryFailB (delFail : String → Option String) (peerID keepKey : String)
    (e : EntryV1) : Bool :=
  entryMatchB peerID keepKey e && (delFail e.1).isSome

end LibV1

namespace Lib

theorem clamp_nonFinite (v : GoFloat) (h : isFinite v = false) :
    clampMetricValue v = metricMin := by
  cases v <;> simp_all [isFinite, clampMetricValue]

theorem clamp_finite (q : ℚ) :
    clampMetricValue (.finite q) =
      .finite (if q < 0 then 0 else if 100 < q then 100 else q) := by
  unfold clampMetricValue
  simp only [isFinite, Bool.not_true, metricMin, metricMax, GoFloat.lt, GoFloat.gt,
    Bool.false_eq_true, if_false, decide_eq_true_eq]
  split_ifs <;> simp_all

theorem clamp_spec (v : GoFloat) :
    ∃ q : ℚ, clampMetricValue v = .finite q ∧ 0 ≤ q ∧ q ≤ 100 := by
  cases v with
  | finite q =>
    refine ⟨if q < 0 then 0 else if 100 < q then 100 else q, clamp_finite q, ?_, ?_⟩ <;>
      split_ifs <;> linarith
  | nan => exact ⟨0, rfl, le_refl 0, by norm_num⟩
  | posInf => exact ⟨0, rfl, le_refl 0, by norm_num⟩
  | negInf => exact ⟨0, rfl, le_refl 0, by norm_num⟩

theorem clamp_id_of {q : ℚ} (h0 : 0 ≤ q) (h1 : q ≤ 100) :
    clampMetricValue (.finite q) = .finite q := by
  rw [clamp_finite]
  congr 1
  rw [if_neg (by linarith), if_neg (by linarith)]

theorem clamp_idem (v : GoFloat) :
    clampMetricValue (clampMetricValue v) = clampMetricValue v := by
  obtain ⟨q, hq, h0, h1⟩ := clamp_spec v
  rw [hq, clamp_id_of h0 h1]

theorem clamp_finite_mono {a b : ℚ} (hab : b ≤ a) :
    ∃ qa qb : ℚ, clampMetricValue (.finite a) = .finite qa ∧
      clampMetricValue (.finite b) = .finite qb ∧ qb ≤ qa := by
  refine ⟨_, _, clamp_finite a, clamp_finite b, ?_⟩
  split_ifs <;> linarith

end Lib

namespace Lib

/-- C6: `clampMetricValue` always lands in [0,100]; on finite input it is the
nearest point of [0,100] to the input; it is idempotent; and every non-finite
input (NaN, +Inf, -Inf) maps to the minimum 0. -/
theorem clampMetricValue_spec (v : GoFloat) :
    (∃ c : ℚ, clampMetricValue v = .finite c ∧ 0 ≤ c ∧ c ≤ 100 ∧
      ∀ q : ℚ, v = .finite q → ∀ w : ℚ, 0 ≤ w → w ≤ 100 → |c - q| ≤ |w - q|) ∧
    clampMetricValue (clampMetricValue v) = clampMetricValue v ∧
    (isFinite v = false → clampMetricValue v = metricMin) := by
  refine ⟨?_, clamp_idem v, clamp_nonFinite v⟩
  cases v with
  | finite q =>
    refine ⟨if q < 0 then 0 else if 100 < q then 100 else q, clamp_finite q,
      by split_ifs <;> linarith, by split_ifs <;> linarith, ?_⟩
    rintro q' hq' w hw0 hw1
    obtain rfl : q = q' := by injection hq'
    split_ifs with hneg hbig
    · rw [abs_of_nonneg (by linarith), abs_of_nonneg (by linarith)]
      linarith
    · rw [abs_of_nonpos (by linarith), abs_of_nonpos (by linarith)]
      linarith
    · simp
  | nan =>
    exact ⟨0, rfl, le_refl 0, by norm_num, by intro q hq; cases hq⟩
  | posInf =>
    exact ⟨0, rfl, le_refl 0, by norm_num, by intro q hq; cases hq⟩
  | negInf =>
    exact ⟨0, rfl, le_refl 0, by norm_num, by intro q hq; cases hq⟩

/-- Witness for C6 at concrete inputs: clamping 150 twice equals clamping it
once, and NaN clamps to the minimum. -/
theorem clampMetricValue_spec_witness :
    clampMetricValue (clampMetricValue (.finite 150)) = clampMetricValue (.finite 150) ∧
    clampMetricValue .nan = metricMin :=
  ⟨(clampMetricValue_spec (.finite 150)).2.1,
    (clampMetricValue_spec .nan).2.2 (by decide)⟩

/-- Shape of a successful migration: a single-entry map under `metricKey`
whose fields are the clamped legacy fields with `soft` lowered to `hard` on
inversion and `current = soft`. -/
theorem migrate_true_shape (b : GoBytes) (lim : LegacyValueLimits)
    (h : b.limits = some lim) :
    ∃ qs qh : ℚ,
      migrateLegacyValues b =
        (some [(metricKey, ⟨.finite qs, .finite qs, .finite qh⟩)], true) ∧
      0 ≤ qs ∧ qs ≤ qh ∧ qh ≤ 100 ∧
      (GoFloat.finite qh) = clampMetricValue lim.hard ∧
      (GoFloat.finite qs) =
        (if GoFloat.gt (clampMetricValue lim.soft) (clampMetricValue lim.hard)
         then clampMetricValue lim.hard else clampMetricValue lim.soft) := by
  obtain ⟨s0, hs0, hs0l, hs0r⟩ := clamp_spec lim.soft
  obtain ⟨h0, hh0, hh0l, hh0r⟩ := clamp_spec lim.hard
  have hmig : migrateLegacyValues b =
      (some [(metricKey,
        ⟨if GoFloat.gt (.finite s0) (.finite h0) then .finite h0 else .finite s0,
         if GoFloat.gt (.finite s0) (.finite h0) then .finite h0 else .finite s0,
         .finite h0⟩)], true) := by
    simp only [migrateLegacyValues, h, hs0, hh0]
  by_cases hgt : h0 < s0
  · have hg : GoFloat.gt (GoFloat.finite s0) (GoFloat.finite h0) = true := by
      simpa [GoFloat.gt_finite_iff] using hgt
    rw [hg] at hmig
    refine ⟨h0, h0, by simpa using hmig, hh0l, le_refl h0, hh0r, hh0.symm, ?_⟩
    rw [hs0, hh0, hg]
    simp
  · have hg : GoFloat.gt (GoFloat.finite s0) (GoFloat.finite h0) = false := by
      simp [GoFloat.gt, GoFloat.lt, hgt]
    rw [hg] at hmig
    refine ⟨s0, h0, by simpa using hmig, hs0l, le_of_not_lt hgt, hh0r, hh0.symm, ?_⟩
    rw [hs0, hh0, hg]
    simp

end Lib

namespace Lib

theorem gt_finite_decide (a b : ℚ) :
    GoFloat.gt (.finite a) (.finite b) = decide (b < a) := by
  simp [GoFloat.gt, GoFloat.lt]

theorem lt_finite_decide (a b : ℚ) :
    GoFloat.lt (.finite a) (.finite b) = decide (a < b) := by
  simp [GoFloat.lt]

theorem assocFind_set_self (l : List (String × ValueMetrics)) (key : String)
    (v : ValueMetrics) : assocFind (assocSet l key v) key = some v := by
  induction l with
  | nil => simp [assocSet, assocFind]
  | cons e rest ih =>
    obtain ⟨k, w⟩ := e
    by_cases hk : k = key
    · simp [assocSet, hk, assocFind]
    · simp [assocSet, hk, assocFind, ih]

theorem beq_true_eq {a b : GoFloat} (h : GoFloat.beq a b = true) : a = b := by
  cases a <;> cases b <;> simp_all [GoFloat.beq]

theorem normaliseValues_ok_spec (l : List (String × ValueMetrics))
    (m : ValueMetrics) (hm : assocFind l metricKey = some m) :
    ∃ (n : ValueMetrics) (changed : Bool),
      normaliseValues (some l) =
        .ok (some (if changed then assocSet l metricKey n else l), changed) ∧
      (∃ c s h : ℚ, n = ⟨.finite c, .finite s, .finite h⟩ ∧
        0 ≤ c ∧ c ≤ h ∧ 0 ≤ s ∧ s ≤ h ∧ h ≤ 100) ∧
      n.hardLimit = clampMetricValue m.hardLimit ∧
      n.softLimit =
        (if GoFloat.gt (clampMetricValue m.softLimit) (clampMetricValue m.hardLimit)
         then clampMetricValue m.hardLimit else clampMetricValue m.softLimit) ∧
      (changed = false → n = m) := by
  obtain ⟨qc, hc, hc0, hc1⟩ := clamp_spec m.current
  obtain ⟨qs, hs, hs0, hs1⟩ := clamp_spec m.softLimit
  obtain ⟨qh, hh, hh0, hh1⟩ := clamp_spec m.hardLimit
  have hchanged : ∀ n : ValueMetrics,
      (!(GoFloat.beq m.current n.current) || !(GoFloat.beq m.softLimit n.softLimit) ||
        !(GoFloat.beq m.hardLimit n.hardLimit)) = false → n = m := by
    intro n hn
    simp only [Bool.or_eq_false_iff, Bool.not_eq_false'] at hn
    obtain ⟨⟨h1, h2⟩, h3⟩ := hn
    have e1 := beq_true_eq h1
    have e2 := beq_true_eq h2
    have e3 := beq_true_eq h3
    cases m; cases n; simp_all
  have hnc : ¬ qc < 0 := not_lt.mpr hc0
  have hnh : ¬ qh < 0 := not_lt.mpr hh0
  by_cases hsh : qh < qs <;> by_cases hch : qh < qc
  · simp only [normaliseValues, hm, hc, hs, hh, gt_finite_decide, lt_finite_decide,
      metricMin, decide_eq_true_eq, hsh, hch, hnh, if_true, if_false,
      eq_self_iff_true, iff_true, if_neg, not_false_iff]
    exact ⟨_, _, rfl, ⟨qh, qh, qh, rfl, hh0, le_refl qh, hh0, le_refl qh, hh1⟩,
      rfl, rfl, hchanged ⟨.finite qh, .finite qh, .finite qh⟩⟩
  · simp only [normaliseValues, hm, hc, hs, hh, gt_finite_decide, lt_finite_decide,
      metricMin, decide_eq_true_eq, hsh, hch, hnc, if_true, if_false,
      eq_self_iff_true, iff_true, if_neg, not_false_iff]
    exact ⟨_, _, rfl, ⟨qc, qh, qh, rfl, hc0, not_lt.mp hch, hh0, le_refl qh, hh1⟩,
      rfl, rfl, hchanged ⟨.finite qc, .finite qh, .finite qh⟩⟩
  · simp only [normaliseValues, hm, hc, hs, hh, gt_finite_decide, lt_finite_decide,
      metricMin, decide_eq_true_eq, hsh, hch, hnh, if_true, if_false,
      eq_self_iff_true, iff_true, if_neg, not_false_iff]
    exact ⟨_, _, rfl, ⟨qh, qs, qh, rfl, hh0, le_refl qh, hs0, not_lt.mp hsh, hh1⟩,
      rfl, rfl, hchanged ⟨.finite qh, .finite qs, .finite qh⟩⟩
  · simp only [normaliseValues, hm, hc, hs, hh, gt_finite_decide, lt_finite_decide,
      metricMin, decide_eq_true_eq, hsh, hch, hnc, if_true, if_false,
      eq_self_iff_true, iff_true, if_neg, not_false_iff]
    exact ⟨_, _, rfl, ⟨qc, qs, qh, rfl, hc0, not_lt.mp hch, hs0, not_lt.mp hsh, hh1⟩,
      rfl, rfl, hchanged ⟨.finite qc, .finite qs, .finite qh⟩⟩

end Lib

namespace Lib

/-- A map whose recognised metric is finite, in range, and well ordered is a
fixed point of normalisation: the map is returned unchanged with
`changed = false`. -/
theorem normalise_inrange_fixpoint (l : List (String × ValueMetrics))
    (m : ValueMetrics) (hm : assocFind l metricKey = some m)
    (c s h : ℚ) (hme : m = ⟨.finite c, .finite s, .finite h⟩)
    (hc0 : 0 ≤ c) (hch : c ≤ h) (hs0 : 0 ≤ s) (hsh : s ≤ h) (hh1 : h ≤ 100) :
    normaliseValues (some l) = .ok (some l, false) := by
  subst hme
  have hh0 : 0 ≤ h := le_trans hc0 hch
  have h1 : ¬ h < s := not_lt.mpr hsh
  have h2 : ¬ h < c := not_lt.mpr hch
  have h3 : ¬ c < 0 := not_lt.mpr hc0
  simp only [normaliseValues, hm, clamp_id_of hc0 (le_trans hch hh1),
    clamp_id_of hs0 (le_trans hsh hh1), clamp_id_of hh0 hh1,
    gt_finite_decide, lt_finite_decide, metricMin, decide_eq_true_eq,
    h1, h2, h3, if_false, GoFloat.beq, beq_self_eq_true, Bool.not_true,
    Bool.or_self, Bool.or_false, Bool.false_or, if_neg, not_false_iff,
    Bool.false_eq_true]

/-- The output map of a successful normalisation is itself normalised:
re-running `normaliseValues` succeeds, changes nothing, and reports
`changed = false`. -/
theorem normalise_ok_fixpoint (vs vs2 : MetricsMap) (ch : Bool)
    (h : normaliseValues vs = .ok (vs2, ch)) :
    normaliseValues vs2 = .ok (vs2, false) := by
  match vs with
  | none => simp [normaliseValues] at h
  | some l =>
    cases hfind : assocFind l metricKey with
    | none => simp [normaliseValues, hfind] at h
    | some m =>
      obtain ⟨n, changed, heq, ⟨c, s, hq, hne, hc0, hchq, hs0, hshq, hh1⟩, -, -, hfalse⟩ :=
        normaliseValues_ok_spec l m hfind
      rw [heq] at h
      simp only [Except.ok.injEq, Prod.mk.injEq] at h
      obtain ⟨hv, hc⟩ := h
      subst hc
      cases changed with
      | true =>
        rw [if_pos rfl] at hv
        subst hv
        exact normalise_inrange_fixpoint _ n (assocFind_set_self l metricKey n)
          c s hq hne hc0 hchq hs0 hshq hh1
      | false =>
        rw [if_neg (by simp)] at hv
        subst hv
        have hnm := hfalse rfl
        subst hnm
        exact normalise_inrange_fixpoint _ n hfind c s hq hne hc0 hchq hs0 hshq hh1

end Lib

namespace Lib

/-- C10: the migrator's output is a fixed point of normalisation — whenever
`migrateLegacyValues` returns `ok = true`, normalising the produced metrics
map succeeds, alters no field, and reports `changed = false`. -/
theorem migrate_output_normalised (b : GoBytes) (ms : Option (List (String × ValueMetrics)))
    (h : migrateLegacyValues b = (ms, true)) :
    normaliseValues ms = .ok (ms, false) := by
  cases hl : b.limits with
  | none => rw [migrateLegacyValues, hl] at h; cases h
  | some lim =>
    obtain ⟨qs, qh, hm, h0, hsh, h100, -, -⟩ := migrate_true_shape b lim hl
    rw [hm] at h
    simp only [Prod.mk.injEq] at h
    obtain ⟨h1, -⟩ := h
    subst h1
    exact normalise_inrange_fixpoint _ _ (by simp [assocFind]) qs qs qh rfl
      h0 hsh h0 hsh h100

/-- Witness for C10: migrating the legacy record `{limits:{soft:40,hard:90}}`
yields a metrics map that normalisation leaves untouched. -/
theorem migrate_output_normalised_witness :
    normaliseValues
        (some [(metricKey, ⟨.finite 40, .finite 40, .finite 90⟩)]) =
      .ok (some [(metricKey, ⟨.finite 40, .finite 40, .finite 90⟩)], false) :=
  migrate_output_normalised ⟨none, some ⟨.finite 40, .finite 90⟩⟩ _ (by decide)

/-- C4: on bytes containing a legacy limits object, migration returns
`ok = true` and a single-entry map under `metricKey` whose fields are the
clamped legacy fields, with `soft` lowered to `hard` when inverted after
clamping and `current = soft`; on bytes with no limits object it returns
`ok = false`; and it is a deterministic function of the input bytes. -/
theorem migrateLegacyValues_contract (b : GoBytes) :
    (∀ lim, b.limits = some lim →
      ∃ m : ValueMetrics, migrateLegacyValues b = (some [(metricKey, m)], true) ∧
        m.current = m.softLimit ∧
        m.hardLimit = clampMetricValue lim.hard ∧
        m.softLimit =
          (if GoFloat.gt (clampMetricValue lim.soft) (clampMetricValue lim.hard)
           then clampMetricValue lim.hard else clampMetricValue lim.soft) ∧
        ∃ s h : ℚ, m.softLimit = .finite s ∧ m.hardLimit = .finite h ∧
          0 ≤ s ∧ s ≤ h ∧ h ≤ 100) ∧
    (b.limits = none → migrateLegacyValues b = (none, false)) ∧
    (∀ b2 : GoBytes, b2 = b → migrateLegacyValues b2 = migrateLegacyValues b) := by
  refine ⟨?_, ?_, fun b2 hb => by rw [hb]⟩
  · intro lim hl
    obtain ⟨qs, qh, hm, h0, hsh, h100, hh, hs⟩ := migrate_true_shape b lim hl
    exact ⟨⟨.finite qs, .finite qs, .finite qh⟩, hm, rfl, hh, hs,
      qs, qh, rfl, rfl, h0, hsh, h100⟩
  · intro hn
    rw [migrateLegacyValues, hn]

/-- Witness for C4 at a concrete legacy record `{limits:{soft:120,hard:50}}`:
both fields clamp, the inverted pair is repaired, and `current = soft`. -/
theorem migrateLegacyValues_contract_witness :
    ∃ m : ValueMetrics,
      migrateLegacyValues ⟨none, some ⟨.finite 120, .finite 50⟩⟩ =
        (some [(metricKey, m)], true) ∧ m.current = m.softLimit := by
  obtain ⟨m, hm, hc, -, -, -⟩ :=
    (migrateLegacyValues_contract ⟨none, some ⟨.finite 120, .finite 50⟩⟩).1
      ⟨.finite 120, .finite 50⟩ rfl
  exact ⟨m, hm, hc⟩

end Lib

namespace Lib

/-- Counterexample to C5 as stated: the stored metric
`{current:0, softLimit:+Inf, hardLimit:50}` has `softLimit > hardLimit`
(Go float comparison), yet normalisation clamps the non-finite soft limit to
0, leaving `softLimit = 0 ≠ 50 = hardLimit`: the normalised soft and hard
limits disagree. -/
theorem normalise_softgt_counterexample :
    GoFloat.gt (GoFloat.posInf) (.finite 50) = true ∧
    normaliseValues (some [(metricKey, ⟨.finite 0, .posInf, .finite 50⟩)]) =
      .ok (some [(metricKey, ⟨.finite 0, .finite 0, .finite 50⟩)], true) ∧
    (GoFloat.finite 0) ≠ (.finite 50) := by
  exact ⟨by decide, rfl, by decide⟩

/-- C5 (amended): normalisation clamps each field into [0,100], repairs the
ordering by pulling `softLimit` down to `hardLimit` when the clamped pair is
inverted, and forces `current` into `[0, hardLimit]`; the stored metric
`{current:150, softLimit:-5, hardLimit:80}` normalises to
`{current:80, softLimit:0, hardLimit:80}`; and for any metric with
`softLimit > hardLimit` whose `softLimit` is not `+Inf` (which clamps to the
minimum instead), the normalised `softLimit` equals the normalised
`hardLimit`. -/
theorem normaliseValues_repair :
    (normaliseValues (some [(metricKey, ⟨.finite 150, .finite (-5), .finite 80⟩)]) =
      .ok (some [(metricKey, ⟨.finite 80, .finite 0, .finite 80⟩)], true)) ∧
    ∀ (l : List (String × ValueMetrics)) (m : ValueMetrics),
      assocFind l metricKey = some m →
      ∃ (n : ValueMetrics) (changed : Bool) (l' : List (String × ValueMetrics)),
        normaliseValues (some l) = .ok (some l', changed) ∧
        assocFind l' metricKey = some n ∧
        (∃ c s h : ℚ, n = ⟨.finite c, .finite s, .finite h⟩ ∧
          0 ≤ c ∧ c ≤ h ∧ 0 ≤ s ∧ s ≤ h ∧ h ≤ 100) ∧
        n.hardLimit = clampMetricValue m.hardLimit ∧
        n.softLimit =
          (if GoFloat.gt (clampMetricValue m.softLimit) (clampMetricValue m.hardLimit)
           then clampMetricValue m.hardLimit else clampMetricValue m.softLimit) ∧
        (GoFloat.gt m.softLimit m.hardLimit = true → m.softLimit ≠ .posInf →
          n.softLimit = n.hardLimit) := by
  refine ⟨rfl, ?_⟩
  intro l m hm
  obtain ⟨n, changed, heq, hbounds, hhard, hsoft, hfalse⟩ :=
    normaliseValues_ok_spec l m hm
  refine ⟨n, changed, if changed then assocSet l metricKey n else l, heq, ?_,
    hbounds, hhard, hsoft, ?_⟩
  · cases changed with
    | true => simpa using assocFind_set_self l metricKey n
    | false => simpa using (hfalse rfl) ▸ hm
  · intro hgt hnp
    rw [hhard, hsoft]
    cases hs : m.softLimit with
    | nan => rw [hs] at hgt; cases m.hardLimit <;> simp [GoFloat.gt, GoFloat.lt] at hgt
    | posInf => exact absurd hs hnp
    | negInf => rw [hs] at hgt; cases m.hardLimit <;> simp [GoFloat.gt, GoFloat.lt] at hgt
    | finite a =>
      rw [hs] at hgt
      cases hh : m.hardLimit with
      | nan => rw [hh] at hgt; simp [GoFloat.gt, GoFloat.lt] at hgt
      | posInf => rw [hh] at hgt; simp [GoFloat.gt, GoFloat.lt] at hgt
      | negInf =>
        obtain ⟨qs, hqs, hqs0, -⟩ := clamp_spec (GoFloat.finite a)
        have hcneg : clampMetricValue GoFloat.negInf = .finite 0 := by decide
        rw [hqs, hcneg, gt_finite_decide]
        by_cases h0 : (0 : ℚ) < qs
        · rw [if_pos (by simpa using h0)]
        · rw [if_neg (by simpa using h0)]
          have : qs = 0 := le_antisymm (not_lt.mp h0) hqs0
          rw [this]
      | finite bq =>
        rw [hh] at hgt
        have hba : bq < a := (GoFloat.gt_finite_iff a bq).mp hgt
        obtain ⟨qa, qb, hqa, hqb, hle⟩ := clamp_finite_mono (le_of_lt hba)
        rw [hqa, hqb, gt_finite_decide]
        by_cases hlt : qb < qa
        · rw [if_pos (by simpa using hlt)]
        · rw [if_neg (by simpa using hlt)]
          have : qa = qb := le_antisymm (not_lt.mp hlt) hle
          rw [this]

/-- Witness for C5 (amended), applying the theorem to the singleton map
holding `{current:150, softLimit:-5, hardLimit:80}`. -/
theorem normaliseValues_repair_witness :
    ∃ (n : ValueMetrics) (changed : Bool) (l' : List (String × ValueMetrics)),
      normaliseValues (some [(metricKey, ⟨.finite 150, .finite (-5), .finite 80⟩)]) =
        .ok (some l', changed) ∧
      assocFind l' metricKey = some n ∧
      (∃ c s h : ℚ, n = ⟨.finite c, .finite s, .finite h⟩ ∧
        0 ≤ c ∧ c ≤ h ∧ 0 ≤ s ∧ s ≤ h ∧ h ≤ 100) := by
  obtain ⟨n, changed, l', h1, h2, h3, -⟩ :=
    normaliseValues_repair.2 [(metricKey, ⟨.finite 150, .finite (-5), .finite 80⟩)]
      ⟨.finite 150, .finite (-5), .finite 80⟩ (by decide)
  exact ⟨n, changed, l', h1, h2, h3⟩

end Lib

namespace Lib

/-- What passing strict validation guarantees about a payload. -/
theorem validate_ok_spec (v : ValuePayload)
    (h : validateValuePayload v = .ok ()) :
    goTrimSpace v.peerId ≠ "" ∧ goTrimSpace v.address.ip ≠ "" ∧
    goTrimSpace v.raw ≠ "" ∧ mapLen v.values ≠ 0 ∧
    ∃ m : ValueMetrics, mapFind v.values metricKey = some m ∧
      ∃ c s hh : ℚ, m = ⟨.finite c, .finite s, .finite hh⟩ ∧
        0 ≤ c ∧ c ≤ 100 ∧ 0 ≤ s ∧ s ≤ 100 ∧ 0 ≤ hh ∧ hh ≤ 100 ∧ s ≤ hh := by
  unfold validateValuePayload at h
  split_ifs at h with h1 h2 h3 h4
  refine ⟨h1, h2, h3, h4, ?_⟩
  cases hm : mapFind v.values metricKey with
  | none => rw [hm] at h; cases h
  | some metric =>
    rw [hm] at h
    dsimp only at h
    refine ⟨metric, rfl, ?_⟩
    split_ifs at h with h5 h6 h7 h8 h9
    simp only [Bool.or_eq_true, Bool.not_eq_true', not_or] at h5 h6 h7 h8
    obtain ⟨⟨hf1, hf2⟩, hf3⟩ := h5
    have hfin : ∀ x : GoFloat, ¬ isFinite x = false → ∃ q : ℚ, x = .finite q := by
      intro x hx
      cases x
      exacts [⟨_, rfl⟩, absurd rfl hx, absurd rfl hx, absurd rfl hx]
    obtain ⟨c, hc⟩ := hfin _ hf1
    obtain ⟨s, hs⟩ := hfin _ hf2
    obtain ⟨hq, hhq⟩ := hfin _ hf3
    rw [hs, hhq] at h9
    rw [hs] at h6
    rw [hhq] at h7
    rw [hc] at h8
    obtain ⟨h6a, h6b⟩ := h6
    obtain ⟨h7a, h7b⟩ := h7
    obtain ⟨h8a, h8b⟩ := h8
    refine ⟨c, s, hq, ?_, ?_, ?_, ?_, ?_, ?_, ?_, ?_⟩
    · cases metric
      simp_all
    · simpa [lt_finite_decide, metricMin] using h8a
    · simpa [gt_finite_decide, metricMax] using h8b
    · simpa [lt_finite_decide, metricMin] using h6a
    · simpa [gt_finite_decide, metricMax] using h6b
    · simpa [lt_finite_decide, metricMin] using h7a
    · simpa [gt_finite_decide, metricMax] using h7b
    · simpa [gt_finite_decide] using h9

end Lib

namespace Lib

theorem decode_ok_inv (b : GoBytes) (key : String) (p : ValuePayload) (u : Bool)
    (h : decodeValuePayload b key = .ok (p, u)) :
    validateValuePayload p = .ok () ∧
    normaliseValues p.values = .ok (p.values, false) := by
  unfold decodeValuePayload at h
  cases hb : b.payload with
  | none => rw [hb] at h; cases h
  | some p0 =>
    rw [hb] at h
    dsimp only at h
    generalize hst : (if mapLen p0.values = 0 then
        match migrateLegacyValues b with
        | (migrated, true) => ({ p0 with values := migrated }, true)
        | (fst, false) => (p0, false)
      else (p0, false)) = st at h
    split at h
    · cases h
    · rename_i vs changed hn
      split at h
      · cases h
      · rename_i val hval
        by_cases hc : goTrimSpace st.1.peerId = ""
        · rw [if_pos hc] at hval
          rw [if_pos hc] at h
          injection h with hpu
          injection hpu with hp hu
          subst hp
          exact ⟨hval, normalise_ok_fixpoint _ _ _ hn⟩
        · rw [if_neg hc] at hval
          rw [if_neg hc] at h
          injection h with hpu
          injection hpu with hp hu
          subst hp
          exact ⟨hval, normalise_ok_fixpoint _ _ _ hn⟩

end Lib

namespace Lib

/-- A metrics map with no recognised metric entry makes normalisation fail
with the "metric required" validation error. -/
theorem normalise_error_of_absent (vs : MetricsMap)
    (hv : mapFind vs metricKey = none) :
    normaliseValues vs = .error ("values." ++ metricKey ++ " is required") := by
  cases vs with
  | none => rfl
  | some l =>
    have : assocFind l metricKey = none := hv
    rw [normaliseValues, this]

/-- A metrics map of Go length 0 has no recognised metric entry. -/
theorem mapFind_of_len_zero (vs : MetricsMap) (hv : mapLen vs = 0) :
    mapFind vs metricKey = none := by
  cases vs with
  | none => rfl
  | some l =>
    cases l with
    | nil => rfl
    | cons e rest => cases hv

/-- C1: whenever `decodeValuePayload` succeeds, the returned descriptor
passes strict validation — trimmed `peerId`, `address.ip` and `raw` are
non-empty, the recognised metric entry exists, its three fields are finite
and within [0,100], and `softLimit ≤ hardLimit`; and when the recognised
metric is still absent after the migration attempt, decoding fails with the
"metric required" validation error instead of returning a descriptor. -/
theorem decodeValuePayload_valid (b : GoBytes) (key : String) :
    (∀ p u, decodeValuePayload b key = .ok (p, u) →
      validateValuePayload p = .ok () ∧
      goTrimSpace p.peerId ≠ "" ∧ goTrimSpace p.address.ip ≠ "" ∧
      goTrimSpace p.raw ≠ "" ∧
      ∃ m : ValueMetrics, mapFind p.values metricKey = some m ∧
        ∃ c s hh : ℚ, m = ⟨.finite c, .finite s, .finite hh⟩ ∧
          0 ≤ c ∧ c ≤ 100 ∧ 0 ≤ s ∧ s ≤ 100 ∧ 0 ≤ hh ∧ hh ≤ 100 ∧ s ≤ hh) ∧
    (∀ p0, b.payload = some p0 →
      ((mapLen p0.values ≠ 0 ∧ mapFind p0.values metricKey = none) ∨
        (mapLen p0.values = 0 ∧ (migrateLegacyValues b).2 = false)) →
      decodeValuePayload b key =
        .error ("values." ++ metricKey ++ " is required")) := by
  constructor
  · intro p u h
    obtain ⟨hval, -⟩ := decode_ok_inv b key p u h
    obtain ⟨h1, h2, h3, -, hm⟩ := validate_ok_spec p hval
    exact ⟨hval, h1, h2, h3, hm⟩
  · intro p0 hb habs
    unfold decodeValuePayload
    rw [hb]
    dsimp only
    rcases habs with ⟨hz, hfind⟩ | ⟨hz, hmig2⟩
    · rw [if_neg hz]
      rw [normalise_error_of_absent p0.values hfind]
    · rw [if_pos hz]
      cases hmig : migrateLegacyValues b with
      | mk mm ok =>
        rw [hmig] at hmig2
        dsimp only at hmig2
        subst hmig2
        dsimp only
        rw [normalise_error_of_absent p0.values (mapFind_of_len_zero p0.values hz)]

/-- Witness for C1 applied to a well-formed stored record. -/
theorem decodeValuePayload_valid_witness :
    validateValuePayload
        ⟨"p1", ⟨"1.2.3.4", none, none⟩,
          some [(metricKey, ⟨.finite 10, .finite 20, .finite 90⟩)], "raw"⟩ =
      .ok () :=
  ((decodeValuePayload_valid
      ⟨some ⟨"p1", ⟨"1.2.3.4", none, none⟩,
        some [(metricKey, ⟨.finite 10, .finite 20, .finite 90⟩)], "raw"⟩, none⟩
      "k").1
    ⟨"p1", ⟨"1.2.3.4", none, none⟩,
      some [(metricKey, ⟨.finite 10, .finite 20, .finite 90⟩)], "raw"⟩
    false rfl).1

end Lib

namespace Lib

/-- C7: decode is idempotent on its own output — re-encoding a successfully
decoded descriptor and decoding it again with the same storage key succeeds
and reports `wasModified = false`. -/
theorem decode_encode_decode (b : GoBytes) (key : String) (p : ValuePayload)
    (u : Bool) (h : decodeValuePayload b key = .ok (p, u)) :
    decodeValuePayload (encodeValuePayload p) key = .ok (p, false) := by
  obtain ⟨hval, hnorm⟩ := decode_ok_inv b key p u h
  obtain ⟨hpid, -, -, hlen, -⟩ := validate_ok_spec p hval
  unfold decodeValuePayload encodeValuePayload
  dsimp only
  rw [if_neg hlen]
  dsimp only
  rw [hnorm]
  dsimp only
  rw [if_neg hpid]
  have hval2 : validateValuePayload ⟨p.peerId, p.address, p.values, p.raw⟩ = .ok () := hval
  rw [hval2, if_neg hpid]
  rfl

/-- Witness for C7: decoding a valid stored record, re-encoding it, and
decoding again reports no modification. -/
theorem decode_encode_decode_witness :
    decodeValuePayload
        (encodeValuePayload
          ⟨"p1", ⟨"1.2.3.4", none, none⟩,
            some [(metricKey, ⟨.finite 10, .finite 20, .finite 90⟩)], "raw"⟩) "k" =
      .ok (⟨"p1", ⟨"1.2.3.4", none, none⟩,
        some [(metricKey, ⟨.finite 10, .finite 20, .finite 90⟩)], "raw"⟩, false) :=
  decode_encode_decode
    ⟨some ⟨"p1", ⟨"1.2.3.4", none, none⟩,
      some [(metricKey, ⟨.finite 10, .finite 20, .finite 90⟩)], "raw"⟩, none⟩
    "k" _ false rfl

end Lib

namespace Lib

/-- Counterexample to C2 as stated: for the request with path `"/ abc "`
(last segment `" abc "`, carrying surrounding whitespace) and query
`peerId=xyz`, the resolver returns the segment as-is, not trimmed of
whitespace. -/
theorem getPeerIDFromRequest_counterexample :
    getPeerIDFromRequest ⟨some "/ abc ", some "xyz", none, .empty⟩ = .ok " abc " ∧
    getPeerIDFromRequest ⟨some "/ abc ", some "xyz", none, .empty⟩ ≠ .ok "abc" := by
  constructor
  · rfl
  · intro hcontra
    rw [show getPeerIDFromRequest ⟨some "/ abc ", some "xyz", none, .empty⟩ =
      .ok " abc " from rfl] at hcontra
    injection hcontra with hs
    exact absurd hs (by decide)

/-- C2 (amended): the resolver prefers the last path segment, returned
as-is (whitespace-trimming is applied only to the reserved-token
comparison); when the path attempt fails or the segment trims to the
reserved token `"delete"`, it falls back to query `peerId`, then query `id`
(both trimmed), then the body (`peerId` over `id`, trimmed), stopping at
the first non-empty result. -/
theorem getPeerIDFromRequest_precedence (r : HttpRequest) :
    (∀ id, getPeerIDFromPath r = .ok id → goTrimSpace id ≠ "delete" →
      getPeerIDFromRequest r = .ok id) ∧
    (((∃ id, getPeerIDFromPath r = .ok id ∧ goTrimSpace id = "delete") ∨
        (∃ e, getPeerIDFromPath r = .error e)) →
      (∀ q, r.queryPeerId = some q → goTrimSpace q ≠ "" →
        getPeerIDFromRequest r = .ok (goTrimSpace q)) ∧
      ((r.queryPeerId = none ∨ ∃ q, r.queryPeerId = some q ∧ goTrimSpace q = "") →
        (∀ q, r.queryId = some q → goTrimSpace q ≠ "" →
          getPeerIDFromRequest r = .ok (goTrimSpace q)) ∧
        ((r.queryId = none ∨ ∃ q, r.queryId = some q ∧ goTrimSpace q = "") →
          getPeerIDFromRequest r = getPeerIDFromBody r ∧
          (∀ bp bi, r.body = .json bp bi →
            (goTrimSpace bp ≠ "" →
              getPeerIDFromRequest r = .ok (goTrimSpace bp)) ∧
            (goTrimSpace bp = "" → goTrimSpace bi ≠ "" →
              getPeerIDFromRequest r = .ok (goTrimSpace bi)) ∧
            (goTrimSpace bp = "" → goTrimSpace bi = "" →
              getPeerIDFromRequest r = .error "missing peerId"))))) := by
  have hfb : (((∃ id, getPeerIDFromPath r = .ok id ∧ goTrimSpace id = "delete") ∨
      (∃ e, getPeerIDFromPath r = .error e)) →
      getPeerIDFromRequest r = getPeerIDFallback r) := by
    rintro (⟨id, hid, hdel⟩ | ⟨e, he⟩)
    · rw [getPeerIDFromRequest, hid]
      dsimp only
      rw [if_neg (by simp [hdel])]
    · rw [getPeerIDFromRequest, he]
  constructor
  · intro id hid hdel
    rw [getPeerIDFromRequest, hid]
    dsimp only
    rw [if_pos hdel]
  · intro hpath
    have hreq := hfb hpath
    constructor
    · intro q hq hqne
      rw [hreq, getPeerIDFallback, hq]
      dsimp only
      rw [if_pos hqne]
    · intro hqp
      have hfb2 : getPeerIDFromRequest r = getPeerIDFallbackId r := by
        rcases hqp with hnone | ⟨q, hq, hqe⟩
        · rw [hreq, getPeerIDFallback, hnone]
        · rw [hreq, getPeerIDFallback, hq]
          dsimp only
          rw [if_neg (by simp [hqe])]
      constructor
      · intro q hq hqne
        rw [hfb2, getPeerIDFallbackId, hq]
        dsimp only
        rw [if_pos hqne]
      · intro hqi
        have hfb3 : getPeerIDFromRequest r = getPeerIDFromBody r := by
          rcases hqi with hnone | ⟨q, hq, hqe⟩
          · rw [hfb2, getPeerIDFallbackId, hnone]
          · rw [hfb2, getPeerIDFallbackId, hq]
            dsimp only
            rw [if_neg (by simp [hqe])]
        refine ⟨hfb3, ?_⟩
        intro bp bi hbody
        refine ⟨?_, ?_, ?_⟩
        · intro hbp
          rw [hfb3, getPeerIDFromBody, hbody]
          dsimp only
          rw [if_pos hbp]
        · intro hbp hbi
          rw [hfb3, getPeerIDFromBody, hbody]
          dsimp only
          rw [if_neg (by simp [hbp]), if_pos hbi]
        · intro hbp hbi
          rw [hfb3, getPeerIDFromBody, hbody]
          dsimp only
          rw [if_neg (by simp [hbp]), if_neg (by simp [hbi])]

/-- Witness for C2 (amended): with path segment `"abc"` and query
`peerId=xyz` the path wins; with path segment `"delete"` the query wins. -/
theorem getPeerIDFromRequest_precedence_witness :
    getPeerIDFromRequest ⟨some "/peers/abc", some "xyz", none, .empty⟩ = .ok "abc" ∧
    getPeerIDFromRequest ⟨some "/peers/delete", some "xyz", none, .empty⟩ = .ok "xyz" :=
  ⟨(getPeerIDFromRequest_precedence ⟨some "/peers/abc", some "xyz", none, .empty⟩).1
      "abc" rfl (by decide),
    by
      have h := ((getPeerIDFromRequest_precedence
        ⟨some "/peers/delete", some "xyz", none, .empty⟩).2
        (Or.inl ⟨"delete", rfl, rfl⟩)).1 "xyz" rfl (by decide)
      simpa using h⟩

end Lib

namespace LibV1

/-- The scan-match test of `findValueByPeerID`: the stored bytes decode to a
payload whose non-empty peerId trims to the trimmed target. -/
def scanMatchB (peerID : String) (e : EntryV1) : Bool :=
  match e.2 with
  | some p => (goTrimSpace p.peerId == goTrimSpace peerID) && !(p.peerId == "")
  | none => false

theorem dbGet_of_mem_nodup (entries : List EntryV1) (e : EntryV1)
    (hnd : (dbList entries).Nodup) (hmem : e ∈ entries) :
    dbGet entries e.1 = some e.2 := by
  induction entries with
  | nil => cases hmem
  | cons f rest ih =>
    obtain ⟨k, v⟩ := f
    rw [dbList, List.map_cons, List.nodup_cons] at hnd
    obtain ⟨hk, hnd'⟩ := hnd
    cases hmem with
    | head => simp [dbGet]
    | tail _ hm =>
      have hne : k ≠ e.1 := by
        intro hkk
        subst hkk
        exact hk (List.mem_map.mpr ⟨e, hm, rfl⟩)
      rw [dbGet]
      rw [if_neg hne]
      exact ih hnd' hm

theorem findLoop_eq_find? (entries : List EntryV1) (peerID : String)
    (L : List EntryV1) (hL : ∀ e ∈ L, dbGet entries e.1 = some e.2) :
    findLoop entries peerID (L.map Prod.fst) =
      (L.find? (scanMatchB peerID)).map (fun e => (e.1, e.2)) := by
  induction L with
  | nil => rfl
  | cons e rest ih =>
    have hget := hL e (List.mem_cons_self e rest)
    have ihr := ih (fun f hf => hL f (List.mem_cons_of_mem e hf))
    rw [List.map_cons, findLoop, hget]
    cases hv : e.2 with
    | none =>
      rw [List.find?_cons_of_neg _ (by simp [scanMatchB, hv])]
      exact ihr
    | some payload =>
      dsimp only
      by_cases hcond : goTrimSpace payload.peerId = goTrimSpace peerID ∧
          payload.peerId ≠ ""
      · rw [if_pos hcond]
        rw [List.find?_cons_of_pos _ (by
          simp only [scanMatchB, hv, Bool.and_eq_true, beq_iff_eq, Bool.not_eq_true',
            beq_eq_false_iff_ne]
          exact hcond)]
        rw [← hv]
        rfl
      · rw [if_neg hcond]
        rw [List.find?_cons_of_neg _ (by
          simp only [scanMatchB, hv, Bool.and_eq_true, beq_iff_eq, Bool.not_eq_true',
            beq_eq_false_iff_ne]
          exact hcond)]
        exact ihr

theorem find?_append_none {α : Type} (p : α → Bool) (pre l : List α)
    (hpre : ∀ j ∈ pre, p j = false) :
    List.find? p (pre ++ l) = List.find? p l := by
  induction pre with
  | nil => rfl
  | cons a rest ih =>
    rw [List.cons_append, List.find?_cons_of_neg _ (by simp [hpre a (by simp)])]
    exact ih (fun j hj => hpre j (List.mem_cons_of_mem a hj))

end LibV1

namespace LibV1

/-- C8 (amended): `findValueByPeerID` first tries a direct get on the
canonical key; on a miss it scans the listed keys and returns the first
entry whose stored peerId is non-empty and trims to the trimmed target
(the non-emptiness of the stored field is required by the code); it returns
`errValueNotFound` exactly when the direct get misses and no entry
scan-matches — in particular on the empty store. -/
theorem findValueByPeerID_spec (entries : List EntryV1) (peerID : String)
    (hnd : (dbList entries).Nodup) :
    (∀ d, dbGet entries (valueStorePfx ++ peerID) = some d →
      findValueByPeerID entries peerID = .ok (valueStorePfx ++ peerID, d)) ∧
    (dbGet entries (valueStorePfx ++ peerID) = none →
      (∀ pre e post, entries = pre ++ e :: post →
        (∀ j ∈ pre, scanMatchB peerID j = false) → scanMatchB peerID e = true →
        findValueByPeerID entries peerID = .ok (e.1, e.2)) ∧
      (findValueByPeerID entries peerID = .error errValueNotFound ↔
        ∀ e ∈ entries, scanMatchB peerID e = false)) ∧
    (entries = [] → findValueByPeerID entries peerID = .error errValueNotFound) := by
  have hloop : findLoop entries peerID (dbList entries) =
      (entries.find? (scanMatchB peerID)).map (fun e => (e.1, e.2)) :=
    findLoop_eq_find? entries peerID entries
      (fun e he => dbGet_of_mem_nodup entries e hnd he)
  refine ⟨?_, ?_, ?_⟩
  · intro d hd
    rw [findValueByPeerID, hd]
  · intro hmiss
    constructor
    · intro pre e post hsplit hpre he
      rw [findValueByPeerID, hmiss]
      dsimp only
      rw [hloop, hsplit, find?_append_none _ pre _ hpre,
        List.find?_cons_of_pos _ he]
      rfl
    · rw [findValueByPeerID, hmiss]
      dsimp only
      rw [hloop]
      constructor
      · intro hres
        cases hf : entries.find? (scanMatchB peerID) with
        | none =>
          intro e he
          exact Bool.not_eq_true _ ▸ List.find?_eq_none.mp hf e he
        | some e => rw [hf] at hres; cases hres
      · intro hall
        rw [List.find?_eq_none.mpr (fun e he => by simp [hall e he])]
        rfl
  · intro hempty
    subst hempty
    rfl

/-- Example entry for the C8 counterexample: a stored record whose embedded
peerId is the empty string. -/
def emptyPeerEntry : ValuePayload :=
  ⟨"", ⟨"1.2.3.4", none, none⟩, ⟨.finite 1, .finite 2⟩, "raw"⟩

/-- Counterexample to C8 as stated: for the whitespace-only target `""` and
a store holding one record whose embedded peerId is `""` (which trims to the
trimmed target), the scan skips the record — the code also requires the
stored peerId to be non-empty — and the lookup reports `errValueNotFound`
even though a trimmed match exists. -/
theorem findValueByPeerID_counterexample :
    goTrimSpace emptyPeerEntry.peerId = goTrimSpace "" ∧
    dbGet [("k", some emptyPeerEntry)] (valueStorePfx ++ "") = none ∧
    findValueByPeerID [("k", some emptyPeerEntry)] "" = .error errValueNotFound := by
  refine ⟨rfl, rfl, rfl⟩

/-- Witness for C8 (amended): a direct hit on the canonical key, and the
empty store reporting `errValueNotFound`. -/
theorem findValueByPeerID_spec_witness :
    findValueByPeerID [("p9", some ⟨"p9", ⟨"1.2.3.4", none, none⟩,
        ⟨.finite 1, .finite 2⟩, "raw"⟩)] "p9" =
      .ok (valueStorePfx ++ "p9", some ⟨"p9", ⟨"1.2.3.4", none, none⟩,
        ⟨.finite 1, .finite 2⟩, "raw"⟩) ∧
    findValueByPeerID [] "ghost" = .error errValueNotFound :=
  ⟨(findValueByPeerID_spec [("p9", some ⟨"p9", ⟨"1.2.3.4", none, none⟩,
        ⟨.finite 1, .finite 2⟩, "raw"⟩)] "p9" (by decide)).1
      (some ⟨"p9", ⟨"1.2.3.4", none, none⟩, ⟨.finite 1, .finite 2⟩, "raw"⟩) rfl,
    (findValueByPeerID_spec [] "ghost" (by decide)).2.2 rfl⟩

end LibV1

namespace LibV1

theorem dbGet_append_cons (D : List EntryV1) (e : EntryV1) (rest : List EntryV1)
    (hD : e.1 ∉ dbList D) : dbGet (D ++ e :: rest) e.1 = some e.2 := by
  induction D with
  | nil =>
    rw [List.nil_append]
    obtain ⟨k, v⟩ := e
    simp [dbGet]
  | cons f fs ih =>
    rw [dbList, List.map_cons] at hD
    simp only [List.mem_cons, not_or] at hD
    obtain ⟨hf, hfs⟩ := hD
    obtain ⟨k, v⟩ := f
    rw [List.cons_append, dbGet, if_neg (by simpa using Ne.symm hf)]
    exact ih hfs

theorem dbDelete_append_cons (D : List EntryV1) (e : EntryV1) (rest : List EntryV1)
    (hD : e.1 ∉ dbList D) (hrest : e.1 ∉ dbList rest) :
    dbDelete (D ++ e :: rest) e.1 = D ++ rest := by
  rw [dbDelete, List.filter_append, List.filter_cons]
  rw [if_neg (by simp)]
  congr 1
  · apply List.filter_eq_self.mpr
    intro a ha
    simp only [Bool.not_eq_true', beq_eq_false_iff_ne, ne_eq]
    intro hae
    exact hD (hae ▸ List.mem_map.mpr ⟨a, ha, rfl⟩)
  · apply List.filter_eq_self.mpr
    intro a ha
    simp only [Bool.not_eq_true', beq_eq_false_iff_ne, ne_eq]
    intro hae
    exact hrest (hae ▸ List.mem_map.mpr ⟨a, ha, rfl⟩)

theorem takeWhile_append_of {α : Type} (p : α → Bool) (pre : List α) (k : α)
    (post : List α) (hpre : ∀ j ∈ pre, p j = true) (hk : p k = false) :
    (pre ++ k :: post).takeWhile p = pre := by
  induction pre with
  | nil => simp [List.takeWhile_cons, hk]
  | cons a rest ih =>
    rw [List.cons_append, List.takeWhile_cons, hpre a (by simp), if_pos rfl,
      ih (fun j hj => hpre j (List.mem_cons_of_mem a hj))]

theorem dropWhile_append_of {α : Type} (p : α → Bool) (pre : List α) (k : α)
    (post : List α) (hpre : ∀ j ∈ pre, p j = true) (hk : p k = false) :
    (pre ++ k :: post).dropWhile p = k :: post := by
  induction pre with
  | nil => simp [List.dropWhile_cons, hk]
  | cons a rest ih =>
    rw [List.cons_append, List.dropWhile_cons, hpre a (by simp), if_pos rfl]
    exact ih (fun j hj => hpre j (List.mem_cons_of_mem a hj))

end LibV1

namespace LibV1

theorem cleanup_skip (delFail : String → Option String) (peerID keepKey : String)
    (e : EntryV1) (rest D : List EntryV1)
    (hfail : entryFailB delFail peerID keepKey e = false)
    (hdelok : entryDelOkB delFail peerID keepKey e = false)
    (hrec : cleanupLoop delFail peerID keepKey (dbList rest) ((D ++ [e]) ++ rest) =
      match rest.dropWhile (fun j => !(entryFailB delFail peerID keepKey j)) with
      | [] => ((D ++ [e]) ++
          rest.filter (fun j => !(entryDelOkB delFail peerID keepKey j)), none)
      | f :: post => ((D ++ [e]) ++
          (rest.takeWhile (fun j => !(entryFailB delFail peerID keepKey j))).filter
            (fun j => !(entryDelOkB delFail peerID keepKey j)) ++ f :: post,
          delFail f.1)) :
    cleanupLoop delFail peerID keepKey (dbList rest) (D ++ e :: rest) =
      match (e :: rest).dropWhile (fun j => !(entryFailB delFail peerID keepKey j)) with
      | [] => (D ++
          (e :: rest).filter (fun j => !(entryDelOkB delFail peerID keepKey j)), none)
      | f :: post => (D ++
          ((e :: rest).takeWhile (fun j => !(entryFailB delFail peerID keepKey j))).filter
            (fun j => !(entryDelOkB delFail peerID keepKey j)) ++ f :: post,
          delFail f.1) := by
  rw [List.append_assoc, List.singleton_append] at hrec
  simp only [List.dropWhile_cons, List.takeWhile_cons, List.filter_cons, hfail, hdelok,
    Bool.not_false, eq_self_iff_true, if_true]
  cases hdw : rest.dropWhile (fun j => !(entryFailB delFail peerID keepKey j)) with
  | nil =>
    rw [hdw] at hrec
    dsimp only at hrec ⊢
    rw [hrec]
    simp
  | cons f post =>
    rw [hdw] at hrec
    dsimp only at hrec ⊢
    rw [hrec]
    simp

end LibV1

namespace LibV1

/-- Full characterisation of one cleanup scan over the snapshot keys of
`D ++ E`, where `D` is the already-processed prefix: if no entry of `E` is a
matching entry whose delete fails, every deletable match of `E` is removed
and no error surfaces; otherwise the scan stops at the first failing entry,
keeps it and everything after it, and surfaces its delete error. -/
theorem cleanupLoop_split (delFail : String → Option String)
    (peerID keepKey : String) (E : List EntryV1) :
    ∀ D : List EntryV1, (dbList (D ++ E)).Nodup →
    cleanupLoop delFail peerID keepKey (dbList E) (D ++ E) =
      match E.dropWhile (fun j => !(entryFailB delFail peerID keepKey j)) with
      | [] => (D ++ E.filter (fun j => !(entryDelOkB delFail peerID keepKey j)), none)
      | f :: post => (D ++
          (E.takeWhile (fun j => !(entryFailB delFail peerID keepKey j))).filter
            (fun j => !(entryDelOkB delFail peerID keepKey j)) ++ f :: post,
          delFail f.1) := by
  induction E with
  | nil =>
    intro D hnd
    simp [dbList, cleanupLoop]
  | cons e rest ih =>
    intro D hnd
    have hmapped : dbList (D ++ e :: rest) = dbList D ++ e.1 :: dbList rest := by
      simp [dbList]
    rw [hmapped] at hnd
    obtain ⟨ndD, ndCons, disj⟩ := List.nodup_append.mp hnd
    have hRkeys : e.1 ∉ dbList rest := (List.nodup_cons.mp ndCons).1
    have hDkeys : e.1 ∉ dbList D := fun hm => disj hm (List.mem_cons_self _ _)
    have hndRec : (dbList ((D ++ [e]) ++ rest)).Nodup := by
      have : dbList ((D ++ [e]) ++ rest) = dbList D ++ e.1 :: dbList rest := by
        simp [dbList]
      rw [this]
      exact hnd
    have hrec := ih (D ++ [e]) hndRec
    rw [show dbList (e :: rest) = e.1 :: dbList rest from by simp [dbList]]
    rw [cleanupLoop]
    by_cases hkeep : e.1 = keepKey
    · rw [if_pos hkeep]
      exact cleanup_skip delFail peerID keepKey e rest D
        (by simp [entryFailB, entryMatchB, hkeep])
        (by simp [entryDelOkB, entryMatchB, hkeep]) hrec
    · rw [if_neg hkeep]
      rw [dbGet_append_cons D e rest hDkeys]
      cases hv : e.2 with
      | none =>
        dsimp only
        exact cleanup_skip delFail peerID keepKey e rest D
          (by simp [entryFailB, entryMatchB, hv])
          (by simp [entryDelOkB, entryMatchB, hv]) hrec
      | some p =>
        dsimp only
        by_cases hcond : goTrimSpace p.peerId = goTrimSpace peerID ∧ p.peerId ≠ ""
        · rw [if_pos hcond]
          cases hdf : delFail e.1 with
          | some err =>
            have hfailT : entryFailB delFail peerID keepKey e = true := by
              simp [entryFailB, entryMatchB, hv, hkeep, hdf, hcond.1, hcond.2]
            simp only [List.dropWhile_cons, List.takeWhile_cons, hfailT,
              Bool.not_true, Bool.false_eq_true, if_false]
            rw [hdf]
            simp
          | none =>
            rw [dbDelete_append_cons D e rest hDkeys hRkeys]
            have hndD : (dbList (D ++ rest)).Nodup := by
              have hsub : List.Sublist (dbList (D ++ rest))
                  (dbList D ++ e.1 :: dbList rest) := by
                rw [dbList, List.map_append]
                exact List.Sublist.append_left (List.sublist_cons_self e.1 (dbList rest)) _
              exact hnd.sublist hsub
            have hfailF : entryFailB delFail peerID keepKey e = false := by
              simp [entryFailB, hdf]
            have hdelokT : entryDelOkB delFail peerID keepKey e = true := by
              simp [entryDelOkB, entryMatchB, hv, hkeep, hdf, hcond.1, hcond.2]
            simp only [List.dropWhile_cons, List.takeWhile_cons, List.filter_cons,
              hfailF, hdelokT, Bool.not_true, Bool.not_false, eq_self_iff_true,
              if_true, Bool.false_eq_true, if_false]
            exact ih D hndD
        · rw [if_neg hcond]
          have hmB : entryMatchB peerID keepKey e = false := by
            rcases not_and_or.mp hcond with hP | hQ
            · simp [entryMatchB, hv, hP]
            · have hpe : p.peerId = "" := not_ne_iff.mp hQ
              simp [entryMatchB, hv, hpe]
          exact cleanup_skip delFail peerID keepKey e rest D
            (by simp [entryFailB, hmB]) (by simp [entryDelOkB, hmB]) hrec

end LibV1


namespace LibV1

/-- The scan predicate of claim C3: key `k` reaches, via a get and a decode,
a stored payload whose trimmed peerId equals the (already trimmed)
identifier. -/
def storedMatchB (entries : List EntryV1) (peerID : String) (k : String) : Bool :=
  match dbGet entries k with
  | some (some p) => goTrimSpace p.peerId == peerID
  | _ => false

theorem validateV1_ok_peerId (v : ValuePayload)
    (h : validateValuePayload v = .ok ()) : goTrimSpace v.peerId ≠ "" := by
  unfold validateValuePayload at h
  split_ifs at h with h1 h2 h3
  exact h1

/-- C3: after a successful registration of `pid`, scanning the stored keys
for a stored record whose trimmed peerId equals `pid` reaches exactly the
canonical key — every other such record was removed by the post-write legacy
cleanup. -/
theorem registerValue_dedup (db : DBV1) (body : Option ValuePayload)
    (db2 : DBV1) (pid : String) (hnd : (dbList db.entries).Nodup)
    (h : registerValueCore db body = .ok (db2, pid)) :
    (dbList db2.entries).filter (storedMatchB db2.entries pid) =
      [valueStorePfx ++ pid] := by
  unfold registerValueCore at h
  cases body with
  | none => simp at h
  | some payload =>
    dsimp only at h
    cases hval : validateValuePayload payload with
    | error e => rw [hval] at h; cases h
    | ok u =>
      rw [hval] at h
      dsimp only at h
      have hpid0 : goTrimSpace payload.peerId ≠ "" := validateV1_ok_peerId payload hval
      cases hcl : cleanupLegacyEntries { entries := dbPut db.entries (valueStorePfx ++ goTrimSpace payload.peerId) (some { payload with peerId := goTrimSpace payload.peerId }), delFail := db.delFail } (goTrimSpace payload.peerId) (valueStorePfx ++ goTrimSpace payload.peerId) with
      | mk db2' r =>
        rw [hcl] at h
        cases r with
        | some e => cases h
        | none =>
          injection h with hpr
          injection hpr with hdb2 hpid
          subst hdb2
          subst hpid
          rw [cleanupLegacyEntries] at hcl
          dsimp only at hcl
          have hput : dbPut db.entries (valueStorePfx ++ goTrimSpace payload.peerId) (some { payload with peerId := goTrimSpace payload.peerId }) = (valueStorePfx ++ goTrimSpace payload.peerId, some { payload with peerId := goTrimSpace payload.peerId }) :: db.entries.filter (fun e => !(e.1 == valueStorePfx ++ goTrimSpace payload.peerId)) := rfl
          rw [hput] at hcl
          have hndrest : (dbList (db.entries.filter (fun e => !(e.1 == valueStorePfx ++ goTrimSpace payload.peerId)))).Nodup :=
            hnd.sublist ((List.filter_sublist db.entries).map Prod.fst)
          have hkeyrest : (valueStorePfx ++ goTrimSpace payload.peerId) ∉ dbList (db.entries.filter (fun e => !(e.1 == valueStorePfx ++ goTrimSpace payload.peerId))) := by
            intro hm
            obtain ⟨a, ha, hae⟩ := List.mem_map.mp hm
            have hcnd := (List.mem_filter.mp ha).2
            rw [hae] at hcnd
            simp at hcnd
          have hnd1 : (dbList ((valueStorePfx ++ goTrimSpace payload.peerId, some { payload with peerId := goTrimSpace payload.peerId }) :: db.entries.filter (fun e => !(e.1 == valueStorePfx ++ goTrimSpace payload.peerId)))).Nodup := by
            rw [dbList, List.map_cons, List.nodup_cons]
            exact ⟨hkeyrest, hndrest⟩
          have hmaster := cleanupLoop_split db.delFail (goTrimSpace payload.peerId) (valueStorePfx ++ goTrimSpace payload.peerId) ((valueStorePfx ++ goTrimSpace payload.peerId, some { payload with peerId := goTrimSpace payload.peerId }) :: db.entries.filter (fun e => !(e.1 == valueStorePfx ++ goTrimSpace payload.peerId))) [] (by simpa using hnd1)
          rw [List.nil_append] at hmaster
          injection hcl with hfst hsnd
          have hents := congrArg DBV1.entries hfst
          dsimp only at hents
          have hpair := congrArg₂ Prod.mk hents hsnd
          have h5 := hmaster.symm.trans hpair
          split at h5
          · rename_i hdwnil
            injection h5 with hfst2 hsnd2
            have hall := List.dropWhile_eq_nil_iff.mp hdwnil
            rw [← hfst2, List.nil_append]
            have hhead : entryDelOkB db.delFail (goTrimSpace payload.peerId) (valueStorePfx ++ goTrimSpace payload.peerId) (valueStorePfx ++ goTrimSpace payload.peerId, some { payload with peerId := goTrimSpace payload.peerId }) = false := by
              simp [entryDelOkB, entryMatchB]
            rw [List.filter_cons, hhead]
            simp only [Bool.not_false, eq_self_iff_true, if_true]
            rw [dbList, List.map_cons, List.filter_cons]
            have hpredkey : storedMatchB ((valueStorePfx ++ goTrimSpace payload.peerId, some { payload with peerId := goTrimSpace payload.peerId }) :: ((db.entries.filter (fun e => !(e.1 == valueStorePfx ++ goTrimSpace payload.peerId))).filter (fun j => !(entryDelOkB db.delFail (goTrimSpace payload.peerId) (valueStorePfx ++ goTrimSpace payload.peerId) j)))) (goTrimSpace payload.peerId) (valueStorePfx ++ goTrimSpace payload.peerId) = true := by
              rw [storedMatchB]
              simp only [dbGet, if_pos rfl]
              simp [goTrimSpace_idem]
            rw [hpredkey]
            simp only [if_true]
            congr 1
            rw [List.filter_eq_nil_iff]
            intro k hk
            obtain ⟨j, hj, hjk⟩ := List.mem_map.mp hk
            have hjrest := List.mem_of_mem_filter hj
            have hjne : (j.1 == valueStorePfx ++ goTrimSpace payload.peerId) = false := by
              have := (List.mem_filter.mp hjrest).2
              simpa using this
            have hjdel : entryDelOkB db.delFail (goTrimSpace payload.peerId) (valueStorePfx ++ goTrimSpace payload.peerId) j = false := by
              have := (List.mem_filter.mp hj).2
              simpa using this
            have hjfail : entryFailB db.delFail (goTrimSpace payload.peerId) (valueStorePfx ++ goTrimSpace payload.peerId) j = false := by
              have hjmem : j ∈ (valueStorePfx ++ goTrimSpace payload.peerId, some { payload with peerId := goTrimSpace payload.peerId }) :: db.entries.filter (fun e => !(e.1 == valueStorePfx ++ goTrimSpace payload.peerId)) := List.mem_cons_of_mem _ hjrest
              have := hall j hjmem
              simpa using this
            subst hjk
            intro hcontra
            rw [storedMatchB] at hcontra
            rw [dbGet, if_neg (by simpa using (beq_eq_false_iff_ne.mp hjne).symm)] at hcontra
            have hndrestF : (dbList ((db.entries.filter (fun e => !(e.1 == valueStorePfx ++ goTrimSpace payload.peerId))).filter (fun j => !(entryDelOkB db.delFail (goTrimSpace payload.peerId) (valueStorePfx ++ goTrimSpace payload.peerId) j)))).Nodup :=
              hndrest.sublist ((List.filter_sublist _).map Prod.fst)
            rw [dbGet_of_mem_nodup _ j hndrestF hj] at hcontra
            cases hjv : j.2 with
            | none => rw [hjv] at hcontra; simp at hcontra
            | some p =>
              rw [hjv] at hcontra
              dsimp only at hcontra
              have htrim : goTrimSpace p.peerId = goTrimSpace payload.peerId := by
                have := of_decide_eq_true (by simpa [BEq.beq] using hcontra)
                exact this
              have hpe : p.peerId ≠ "" := by
                intro hp0
                rw [hp0] at htrim
                exact hpid0 htrim.symm
              have hmatch : entryMatchB (goTrimSpace payload.peerId) (valueStorePfx ++ goTrimSpace payload.peerId) j = true := by
                rw [entryMatchB, hjv]
                simp [hjne, htrim, goTrimSpace_idem, hpe]
              rw [entryFailB, hmatch, Bool.true_and] at hjfail
              rw [entryDelOkB, hmatch, Bool.true_and] at hjdel
              have hnone : (db.delFail j.1).isNone = true := by
                cases hdf2 : db.delFail j.1 with
                | none => rfl
                | some e2 => rw [hdf2] at hjfail; simp at hjfail
              rw [hnone] at hjdel
              cases hjdel
          · rename_i f post hdwcons
            injection h5 with hfst2 hsnd2
            have hh := dropWhile_head_not _ _ f ((congrArg List.head? hdwcons).trans rfl)
            simp only [Bool.not_eq_false'] at hh
            rw [entryFailB] at hh
            simp only [Bool.and_eq_true] at hh
            have hiss := hh.2
            rw [hsnd2] at hiss
            simp at hiss

end LibV1

namespace LibV1

/-- Delete-failure oracle for the C3 witness: no delete fails. -/
def exNoFail : String → Option String := fun _ => none

/-- The payload registered in the C3 witness. -/
def exRegPayload : ValuePayload :=
  ⟨"p1", ⟨"1.2.3.4", none, none⟩, ⟨.finite 10, .finite 20⟩, "r"⟩

/-- The legacy record sitting under the key "p1-old" in the C3 witness. -/
def exLegacyPayload : ValuePayload :=
  ⟨"p1", ⟨"9.9.9.9", none, none⟩, ⟨.finite 1, .finite 2⟩, "old"⟩

/-- Witness for C3: registering peerId "p1" over a store holding the legacy
key "p1-old" with embedded peerId "p1" leaves exactly the canonical record
reachable by the scan. -/
theorem registerValue_dedup_witness :
    (dbList ((⟨[(valueStorePfx ++ "p1", some exRegPayload)], exNoFail⟩ : DBV1).entries)).filter
        (storedMatchB (⟨[(valueStorePfx ++ "p1", some exRegPayload)], exNoFail⟩ : DBV1).entries "p1") =
      [valueStorePfx ++ "p1"] :=
  registerValue_dedup ⟨[("p1-old", some exLegacyPayload)], exNoFail⟩
    (some exRegPayload) ⟨[(valueStorePfx ++ "p1", some exRegPayload)], exNoFail⟩
    "p1" (by decide) rfl

end LibV1

namespace LibV1

/-- The scan loop of `cleanupLegacyEntries` with the full storage-fault
model of the Go code: `getFail k = true` models `db.Get(k)` returning an
error — the code skips the key silently and continues the scan — and
`delFail k = some e` models `db.Delete(k)` failing with `e`.
`cleanupLoop` is the instance with no read failures
(`cleanupLoopF_no_getfail`). -/
def cleanupLoopF (getFail : String → Bool) (delFail : String → Option String)
    (peerID keepKey : String) : List String → List EntryV1 → List EntryV1 × Option String
  | [], entries => (entries, none)
  | k :: ks, entries =>
    if k = keepKey then cleanupLoopF getFail delFail peerID keepKey ks entries
    else if getFail k then cleanupLoopF getFail delFail peerID keepKey ks entries
    else
      match dbGet entries k with
      | none => cleanupLoopF getFail delFail peerID keepKey ks entries
      | some data =>
        match data with
        | none => cleanupLoopF getFail delFail peerID keepKey ks entries
        | some payload =>
          if goTrimSpace payload.peerId = goTrimSpace peerID ∧ payload.peerId ≠ "" then
            match delFail k with
            | some e => (entries, some e)
            | none => cleanupLoopF getFail delFail peerID keepKey ks (dbDelete entries k)
          else cleanupLoopF getFail delFail peerID keepKey ks entries

/-- Go `cleanupLegacyEntries` under the fault model that also injects read
failures: list once, then run the fault-aware scan loop. -/
def cleanupLegacyEntriesF (getFail : String → Bool) (db : DBV1)
    (peerID keepKey : String) : DBV1 × Option String :=
  let r := cleanupLoopF getFail db.delFail peerID keepKey (dbList db.entries) db.entries
  ({ db with entries := r.1 }, r.2)

/-- A readable matching entry: its read does not fail, it decodes, its
non-empty peerId trims to the trimmed target, and it is not the kept key. -/
def entryMatchF (getFail : String → Bool) (peerID keepKey : String)
    (e : EntryV1) : Bool :=
  !(getFail e.1) && entryMatchB peerID keepKey e

/-- A readable matching entry whose delete would succeed. -/
def entryDelOkF (getFail : String → Bool) (delFail : String → Option String)
    (peerID keepKey : String) (e : EntryV1) : Bool :=
  entryMatchF getFail peerID keepKey e && (delFail e.1).isNone

/-- A readable matching entry whose delete would fail. -/
def entryFailF (getFail : String → Bool) (delFail : String → Option String)
    (peerID keepKey : String) (e : EntryV1) : Bool :=
  entryMatchF getFail peerID keepKey e && (delFail e.1).isSome

/-- With no injected read failure the fault-aware loop is the base loop. -/
theorem cleanupLoopF_no_getfail (delFail : String → Option String)
    (peerID keepKey : String) :
    ∀ (ks : List String) (entries : List EntryV1),
    cleanupLoopF (fun _ => false) delFail peerID keepKey ks entries =
      cleanupLoop delFail peerID keepKey ks entries := by
  intro ks
  induction ks with
  | nil => intro entries; rfl
  | cons k rest ih =>
    intro entries
    rw [cleanupLoopF, cleanupLoop]
    by_cases hk : k = keepKey
    · rw [if_pos hk, if_pos hk, ih]
    · rw [if_neg hk, if_neg hk, if_neg (by simp)]
      cases hget : dbGet entries k with
      | none => exact ih entries
      | some data =>
        cases data with
        | none => exact ih entries
        | some payload =>
          dsimp only
          by_cases hcond : goTrimSpace payload.peerId = goTrimSpace peerID ∧
              payload.peerId ≠ ""
          · rw [if_pos hcond, if_pos hcond]
            cases delFail k with
            | some e => rfl
            | none => exact ih (dbDelete entries k)
          · rw [if_neg hcond, if_neg hcond]
            exact ih entries

/-- With no injected read failure the fault-aware cleanup is the base
cleanup. -/
theorem cleanupLegacyEntriesF_no_getfail (db : DBV1) (peerID keepKey : String) :
    cleanupLegacyEntriesF (fun _ => false) db peerID keepKey =
      cleanupLegacyEntries db peerID keepKey := by
  rw [cleanupLegacyEntriesF, cleanupLegacyEntries,
    cleanupLoopF_no_getfail db.delFail peerID keepKey]

end LibV1

namespace LibV1

theorem cleanup_skipF (getFail : String → Bool) (delFail : String → Option String)
    (peerID keepKey : String) (e : EntryV1) (rest D : List EntryV1)
    (hfail : entryFailF getFail delFail peerID keepKey e = false)
    (hdelok : entryDelOkF getFail delFail peerID keepKey e = false)
    (hrec : cleanupLoopF getFail delFail peerID keepKey (dbList rest) ((D ++ [e]) ++ rest) =
      match rest.dropWhile (fun j => !(entryFailF getFail delFail peerID keepKey j)) with
      | [] => ((D ++ [e]) ++
          rest.filter (fun j => !(entryDelOkF getFail delFail peerID keepKey j)), none)
      | f :: post => ((D ++ [e]) ++
          (rest.takeWhile (fun j => !(entryFailF getFail delFail peerID keepKey j))).filter
            (fun j => !(entryDelOkF getFail delFail peerID keepKey j)) ++ f :: post,
          delFail f.1)) :
    cleanupLoopF getFail delFail peerID keepKey (dbList rest) (D ++ e :: rest) =
      match (e :: rest).dropWhile (fun j => !(entryFailF getFail delFail peerID keepKey j)) with
      | [] => (D ++
          (e :: rest).filter (fun j => !(entryDelOkF getFail delFail peerID keepKey j)), none)
      | f :: post => (D ++
          ((e :: rest).takeWhile (fun j => !(entryFailF getFail delFail peerID keepKey j))).filter
            (fun j => !(entryDelOkF getFail delFail peerID keepKey j)) ++ f :: post,
          delFail f.1) := by
  rw [List.append_assoc, List.singleton_append] at hrec
  simp only [List.dropWhile_cons, List.takeWhile_cons, List.filter_cons, hfail, hdelok,
    Bool.not_false, eq_self_iff_true, if_true]
  cases hdw : rest.dropWhile (fun j => !(entryFailF getFail delFail peerID keepKey j)) with
  | nil =>
    rw [hdw] at hrec
    dsimp only at hrec ⊢
    rw [hrec]
    simp
  | cons f post =>
    rw [hdw] at hrec
    dsimp only at hrec ⊢
    rw [hrec]
    simp

/-- Full characterisation of one fault-aware cleanup scan over the snapshot
keys of `D ++ E`, with `D` the already-processed prefix: if no readable
matching entry of `E` has a failing delete, exactly the deletable readable
matches of `E` are removed and no error surfaces; otherwise the scan stops
at the first such failing entry, keeps it and everything after it, and
surfaces its delete error. -/
theorem cleanupLoopF_split (getFail : String → Bool)
    (delFail : String → Option String) (peerID keepKey : String)
    (E : List EntryV1) :
    ∀ D : List EntryV1, (dbList (D ++ E)).Nodup →
    cleanupLoopF getFail delFail peerID keepKey (dbList E) (D ++ E) =
      match E.dropWhile (fun j => !(entryFailF getFail delFail peerID keepKey j)) with
      | [] => (D ++ E.filter (fun j => !(entryDelOkF getFail delFail peerID keepKey j)), none)
      | f :: post => (D ++
          (E.takeWhile (fun j => !(entryFailF getFail delFail peerID keepKey j))).filter
            (fun j => !(entryDelOkF getFail delFail peerID keepKey j)) ++ f :: post,
          delFail f.1) := by
  induction E with
  | nil =>
    intro D hnd
    simp [dbList, cleanupLoopF]
  | cons e rest ih =>
    intro D hnd
    have hmapped : dbList (D ++ e :: rest) = dbList D ++ e.1 :: dbList rest := by
      simp [dbList]
    rw [hmapped] at hnd
    obtain ⟨ndD, ndCons, disj⟩ := List.nodup_append.mp hnd
    have hRkeys : e.1 ∉ dbList rest := (List.nodup_cons.mp ndCons).1
    have hDkeys : e.1 ∉ dbList D := fun hm => disj hm (List.mem_cons_self _ _)
    have hndRec : (dbList ((D ++ [e]) ++ rest)).Nodup := by
      have : dbList ((D ++ [e]) ++ rest) = dbList D ++ e.1 :: dbList rest := by
        simp [dbList]
      rw [this]
      exact hnd
    have hrec := ih (D ++ [e]) hndRec
    rw [show dbList (e :: rest) = e.1 :: dbList rest from by simp [dbList]]
    rw [cleanupLoopF]
    by_cases hkeep : e.1 = keepKey
    · rw [if_pos hkeep]
      exact cleanup_skipF getFail delFail peerID keepKey e rest D
        (by simp [entryFailF, entryMatchF, entryMatchB, hkeep])
        (by simp [entryDelOkF, entryMatchF, entryMatchB, hkeep]) hrec
    · rw [if_neg hkeep]
      by_cases hgf : getFail e.1 = true
      · rw [if_pos hgf]
        exact cleanup_skipF getFail delFail peerID keepKey e rest D
          (by simp [entryFailF, entryMatchF, hgf])
          (by simp [entryDelOkF, entryMatchF, hgf]) hrec
      · rw [if_neg hgf]
        have hgf2 : getFail e.1 = false := Bool.not_eq_true _ ▸ hgf
        rw [dbGet_append_cons D e rest hDkeys]
        cases hv : e.2 with
        | none =>
          dsimp only
          exact cleanup_skipF getFail delFail peerID keepKey e rest D
            (by simp [entryFailF, entryMatchF, entryMatchB, hv])
            (by simp [entryDelOkF, entryMatchF, entryMatchB, hv]) hrec
        | some p =>
          dsimp only
          by_cases hcond : goTrimSpace p.peerId = goTrimSpace peerID ∧ p.peerId ≠ ""
          · rw [if_pos hcond]
            cases hdf : delFail e.1 with
            | some err =>
              have hfailT : entryFailF getFail delFail peerID keepKey e = true := by
                simp [entryFailF, entryMatchF, entryMatchB, hv, hkeep, hgf2, hdf,
                  hcond.1, hcond.2]
              simp only [List.dropWhile_cons, List.takeWhile_cons, hfailT,
                Bool.not_true, Bool.false_eq_true, if_false]
              rw [hdf]
              simp
            | none =>
              rw [dbDelete_append_cons D e rest hDkeys hRkeys]
              have hndD : (dbList (D ++ rest)).Nodup := by
                have hsub : List.Sublist (dbList (D ++ rest))
                    (dbList D ++ e.1 :: dbList rest) := by
                  rw [dbList, List.map_append]
                  exact List.Sublist.append_left (List.sublist_cons_self e.1 (dbList rest)) _
                exact hnd.sublist hsub
              have hfailFe : entryFailF getFail delFail peerID keepKey e = false := by
                simp [entryFailF, hdf]
              have hdelokT : entryDelOkF getFail delFail peerID keepKey e = true := by
                simp [entryDelOkF, entryMatchF, entryMatchB, hv, hkeep, hgf2, hdf,
                  hcond.1, hcond.2]
              simp only [List.dropWhile_cons, List.takeWhile_cons, List.filter_cons,
                hfailFe, hdelokT, Bool.not_true, Bool.not_false, eq_self_iff_true,
                if_true, Bool.false_eq_true, if_false]
              exact ih D hndD
          · rw [if_neg hcond]
            have hmB : entryMatchB peerID keepKey e = false := by
              rcases not_and_or.mp hcond with hP | hQ
              · simp [entryMatchB, hv, hP]
              · have hpe : p.peerId = "" := not_ne_iff.mp hQ
                simp [entryMatchB, hv, hpe]
            exact cleanup_skipF getFail delFail peerID keepKey e rest D
              (by simp [entryFailF, entryMatchF, hmB])
              (by simp [entryDelOkF, entryMatchF, hmB]) hrec

end LibV1

namespace LibV1

/-- C9: during a legacy-cleanup scan, entries whose bytes fail to read
(`getFail`) or fail to decode (`none` bytes) are skipped silently and kept
(third conjunct), the scan deletes exactly the readable matching entries
and returns no error when none of their deletes fail (first conjunct), and
the first failing delete of a readable matching key aborts the scan
immediately with the underlying storage error, keeping that entry and
everything after it while entries already deleted before the failure stay
deleted (second conjunct). -/
theorem cleanupLegacyEntriesF_spec (getFail : String → Bool) (db : DBV1)
    (peerID keepKey : String) (hnd : (dbList db.entries).Nodup) :
    ((∀ j ∈ db.entries, entryFailF getFail db.delFail peerID keepKey j = false) →
      cleanupLegacyEntriesF getFail db peerID keepKey =
        ({ db with entries := db.entries.filter (fun j => !(entryDelOkF getFail db.delFail peerID keepKey j)) }, none)) ∧
    (∀ pre f post e, db.entries = pre ++ f :: post →
      (∀ j ∈ pre, entryFailF getFail db.delFail peerID keepKey j = false) →
      entryMatchF getFail peerID keepKey f = true → db.delFail f.1 = some e →
      cleanupLegacyEntriesF getFail db peerID keepKey =
        ({ db with entries := pre.filter (fun j => !(entryDelOkF getFail db.delFail peerID keepKey j)) ++ f :: post },
          some e)) ∧
    (∀ j ∈ db.entries, getFail j.1 = true ∨ j.2 = none →
      j ∈ (cleanupLegacyEntriesF getFail db peerID keepKey).1.entries) := by
  have hmaster := cleanupLoopF_split getFail db.delFail peerID keepKey db.entries []
    (by simpa using hnd)
  simp only [List.nil_append] at hmaster
  have hskipped : ∀ j : EntryV1, getFail j.1 = true ∨ j.2 = none →
      entryFailF getFail db.delFail peerID keepKey j = false ∧
      entryDelOkF getFail db.delFail peerID keepKey j = false := by
    intro j hj
    rcases hj with hg | hb
    · exact ⟨by simp [entryFailF, entryMatchF, hg], by simp [entryDelOkF, entryMatchF, hg]⟩
    · exact ⟨by simp [entryFailF, entryMatchF, entryMatchB, hb],
        by simp [entryDelOkF, entryMatchF, entryMatchB, hb]⟩
  refine ⟨?_, ?_, ?_⟩
  · intro hall
    have hdw : db.entries.dropWhile
        (fun j => !(entryFailF getFail db.delFail peerID keepKey j)) = [] :=
      List.dropWhile_eq_nil_iff.mpr (fun x hx => by simp [hall x hx])
    rw [hdw] at hmaster
    dsimp only at hmaster
    rw [cleanupLegacyEntriesF, hmaster]
  · intro pre f post e hsplit hpre hmatch hdf
    have hff : entryFailF getFail db.delFail peerID keepKey f = true := by
      simp [entryFailF, entryMatchF, entryMatchB] at hmatch ⊢
      simp [hmatch, hdf]
    have hdw : db.entries.dropWhile
        (fun j => !(entryFailF getFail db.delFail peerID keepKey j)) = f :: post := by
      rw [hsplit]
      exact dropWhile_append_of _ pre f post
        (fun j hj => by simp [hpre j hj]) (by simp [hff])
    have htw : db.entries.takeWhile
        (fun j => !(entryFailF getFail db.delFail peerID keepKey j)) = pre := by
      rw [hsplit]
      exact takeWhile_append_of _ pre f post
        (fun j hj => by simp [hpre j hj]) (by simp [hff])
    rw [hdw, htw] at hmaster
    dsimp only at hmaster
    rw [cleanupLegacyEntriesF, hmaster, hdf]
  · intro j hj hskip
    obtain ⟨hjfail, hjdelok⟩ := hskipped j hskip
    rw [cleanupLegacyEntriesF]
    cases hdw : db.entries.dropWhile
        (fun j => !(entryFailF getFail db.delFail peerID keepKey j)) with
    | nil =>
      rw [hdw] at hmaster
      dsimp only at hmaster
      rw [hmaster]
      exact List.mem_filter.mpr ⟨hj, by simp [hjdelok]⟩
    | cons f post =>
      rw [hdw] at hmaster
      dsimp only at hmaster
      rw [hmaster]
      have hsplit := (List.takeWhile_append_dropWhile
        (fun j => !(entryFailF getFail db.delFail peerID keepKey j)) db.entries).symm
      rw [hdw] at hsplit
      rw [hsplit] at hj
      rcases List.mem_append.mp hj with hpre | hpost
      · exact List.mem_append.mpr (Or.inl
          (List.mem_filter.mpr ⟨hpre, by simp [hjdelok]⟩))
      · exact List.mem_append.mpr (Or.inr hpost)

end LibV1

namespace LibV1

/-- Read-failure oracle for the C9 witness: reading the key "locked" fails. -/
def exGetFail : String → Bool := fun k => k == "locked"

/-- Delete-failure oracle for the C9 witness: deleting the key "b" fails
with "disk error". -/
def exDelFail : String → Option String :=
  fun k => if k = "b" then some "disk error" else none

/-- A stored payload matching target peerId "p", for the C9 witness. -/
def exMatchPayload : ValuePayload :=
  ⟨"p", ⟨"1.1.1.1", none, none⟩, ⟨.finite 1, .finite 2⟩, "r"⟩

/-- Witness for C9: over the store
[("a", match), ("locked", match), ("bad", undecodable), ("b", match)]
with the read of "locked" failing and the delete of "b" failing, the scan
deletes "a", silently keeps "locked" and "bad", and aborts at "b" with
"disk error". -/
theorem cleanupLegacyEntriesF_spec_witness :
    cleanupLegacyEntriesF exGetFail
        ⟨[("a", some exMatchPayload), ("locked", some exMatchPayload), ("bad", none), ("b", some exMatchPayload)], exDelFail⟩
        "p" "keep" =
      (⟨[("locked", some exMatchPayload), ("bad", none), ("b", some exMatchPayload)], exDelFail⟩, some "disk error") := by
  have h := (cleanupLegacyEntriesF_spec exGetFail
      ⟨[("a", some exMatchPayload), ("locked", some exMatchPayload), ("bad", none), ("b", some exMatchPayload)], exDelFail⟩
      "p" "keep" (by decide)).2.1
      [("a", some exMatchPayload), ("locked", some exMatchPayload), ("bad", none)]
      ("b", some exMatchPayload) [] "disk error" rfl (by decide) (by decide) rfl
  exact h.trans rfl

end LibV1
